import Mathlib

/-!
# Verification of the xray-react core

A shallow embedding of the core of the `xray-react` repository:
the path normalizer, project classifier, render-tree walker,
hierarchy path builders (`src/src/constants.js`), and the static
source extractor / disambiguator (`src/lib/source-utils.js`).

Strings are modelled as `List Char` (JavaScript strings over the
ASCII fragment that the code manipulates).  JavaScript truthiness of
an optional string is "present and non-empty".  Regex scans are
hand-compiled into character-list scanners that mirror the concrete
patterns of the source, including greedy/lazy munching and ordered
alternation where it matters.
-/

set_option maxRecDepth 20000

/-- Shorthand: the character list of a string literal. -/
def sl (x : String) : List Char := x.data

/-! ## Character classes used by the regexes -/

/-- JS `\w`: ASCII letters, digits and underscore. -/
def isWordChar (c : Char) : Bool :=
  c.isAlpha || c.isDigit || c == '_'

/-- JS `\s` on the ASCII range the repository's inputs use. -/
def isSpaceChar (c : Char) : Bool :=
  c == ' ' || c == '\t' || c == '\n' || c == '\r' || c == '\x0b' || c == '\x0c'

/-- JS `String.prototype.toLowerCase` on one ASCII character:
uppercase letters (codes 65–90) are shifted by 32, everything else is
kept. -/
def jsCharToLower (c : Char) : Char :=
  if 65 ≤ c.toNat ∧ c.toNat ≤ 90 then Char.ofNat (c.toNat + 32) else c

/-- JS `toLowerCase` over a whole string. -/
def lowerStr (l : List Char) : List Char := l.map jsCharToLower

/-! ## Generic list-of-char helpers (JS `includes`, `startsWith`, `endsWith`) -/

/-- Does `l` start with the segment `pre`? (JS `String.prototype.startsWith`). -/
def listStartsWith (pre l : List Char) : Bool :=
  match pre, l with
  | [], _ => true
  | _ :: _, [] => false
  | p :: ps, c :: cs => p == c && listStartsWith ps cs

/-- Does `l` contain the segment `seg`? (JS `String.prototype.includes`). -/
def listContainsSeg (seg l : List Char) : Bool :=
  match l with
  | [] => listStartsWith seg []
  | _ :: cs => listStartsWith seg l || listContainsSeg seg cs

/-- Does `l` end with the segment `suf`? (JS `String.prototype.endsWith`). -/
def listEndsWith (suf l : List Char) : Bool :=
  listStartsWith suf.reverse l.reverse

/-! ## Path Normalizer (`normalizePath`, src/src/constants.js lines 55–67)

The memoization cache only stores the pure result, so the embedding is
the pure function. -/

/-- One step of `replace(/\\/g, '/')`. -/
def replBackslash (c : Char) : Char := if c = '\\' then '/' else c

/-- `replace(/^\/+/, '')`: drop leading forward slashes. -/
def dropLeadingSlashes (l : List Char) : List Char :=
  l.dropWhile (fun c => c == '/')

/-- `replace(/\/+$/, '')`: drop trailing forward slashes. -/
def dropTrailingSlashes (l : List Char) : List Char :=
  (l.reverse.dropWhile (fun c => c == '/')).reverse

/-- `normalizePath` of src/src/constants.js: empty (falsy) input gives
the empty string; otherwise backslashes become forward slashes, leading
and trailing slashes are stripped, and the result is lower-cased. -/
def normalizePath (l : List Char) : List Char :=
  if l = [] then []
  else lowerStr (dropTrailingSlashes (dropLeadingSlashes (l.map replBackslash)))

/-! ### Facts about `jsCharToLower` -/

theorem charOfNat_toNat_of_upper {n : Nat} (h65 : 65 ≤ n) (h90 : n ≤ 90) :
    (Char.ofNat (n + 32)).toNat = n + 32 := by
  interval_cases n <;> decide

theorem jsCharToLower_idem (c : Char) :
    jsCharToLower (jsCharToLower c) = jsCharToLower c := by
  unfold jsCharToLower
  by_cases h : 65 ≤ c.toNat ∧ c.toNat ≤ 90
  · rw [if_pos h, if_neg]
    rw [charOfNat_toNat_of_upper h.1 h.2]
    omega
  · rw [if_neg h, if_neg h]

theorem jsCharToLower_ne_backslash {c : Char} (h : c ≠ '\\') :
    jsCharToLower c ≠ '\\' := by
  unfold jsCharToLower
  by_cases hc : 65 ≤ c.toNat ∧ c.toNat ≤ 90
  · rw [if_pos hc]
    intro he
    have hv := charOfNat_toNat_of_upper hc.1 hc.2
    rw [he] at hv
    rw [show Char.toNat '\\' = 92 from rfl] at hv
    omega
  · rw [if_neg hc]; exact h

theorem jsCharToLower_ne_slash {c : Char} (h : c ≠ '/') :
    jsCharToLower c ≠ '/' := by
  unfold jsCharToLower
  by_cases hc : 65 ≤ c.toNat ∧ c.toNat ≤ 90
  · rw [if_pos hc]
    intro he
    have hv := charOfNat_toNat_of_upper hc.1 hc.2
    rw [he] at hv
    rw [show Char.toNat '/' = 47 from rfl] at hv
    omega
  · rw [if_neg hc]; exact h

theorem replBackslash_ne_backslash (c : Char) : replBackslash c ≠ '\\' := by
  unfold replBackslash
  by_cases h : c = '\\'
  · rw [if_pos h]; decide
  · rw [if_neg h]; exact h

/-! ### Idempotence of the Path Normalizer -/

theorem dropWhile_head?_false {p : Char → Bool} {l : List Char} {c : Char}
    (h : (l.dropWhile p).head? = some c) : p c = false := by
  induction l with
  | nil => simp [List.dropWhile] at h
  | cons x xs ih =>
    by_cases hx : p x
    · rw [List.dropWhile_cons_of_pos hx] at h
      exact ih h
    · rw [List.dropWhile_cons_of_neg hx] at h
      simp at h
      rw [← h]
      simpa using hx

theorem dropWhile_eq_self_of_head? {p : Char → Bool} {l : List Char}
    (h : ∀ c, l.head? = some c → p c = false) : l.dropWhile p = l := by
  cases l with
  | nil => rfl
  | cons x xs =>
    rw [List.dropWhile_cons_of_neg]
    simp [h x rfl]

theorem mem_dropWhile_subset {p : Char → Bool} {l : List Char} {c : Char}
    (h : c ∈ l.dropWhile p) : c ∈ l := by
  induction l with
  | nil => simp [List.dropWhile] at h
  | cons x xs ih =>
    by_cases hx : p x
    · rw [List.dropWhile_cons_of_pos hx] at h
      exact List.mem_cons_of_mem _ (ih h)
    · rw [List.dropWhile_cons_of_neg hx] at h
      exact h

/-- `dropTrailingSlashes l` followed by the dropped tail recovers `l`. -/
theorem dropTrailingSlashes_append (l : List Char) :
    ∃ t, dropTrailingSlashes l ++ t = l := by
  refine ⟨(l.reverse.takeWhile (fun c => c == '/')).reverse, ?_⟩
  unfold dropTrailingSlashes
  rw [← List.reverse_append, List.takeWhile_append_dropWhile, List.reverse_reverse]

theorem mem_dropTrailingSlashes_subset {l : List Char} {c : Char}
    (h : c ∈ dropTrailingSlashes l) : c ∈ l := by
  rcases dropTrailingSlashes_append l with ⟨t, ht⟩
  rw [← ht]
  exact List.mem_append_left _ h

theorem mem_dropLeadingSlashes_subset {l : List Char} {c : Char}
    (h : c ∈ dropLeadingSlashes l) : c ∈ l :=
  mem_dropWhile_subset h

/-- A normalized path contains no backslash. -/
theorem normalizePath_no_backslash {l : List Char} {c : Char}
    (h : c ∈ normalizePath l) : c ≠ '\\' := by
  unfold normalizePath at h
  by_cases hl : l = []
  · rw [if_pos hl] at h; simp at h
  · rw [if_neg hl] at h
    unfold lowerStr at h
    rcases List.mem_map.mp h with ⟨d, hd, hdc⟩
    have hd2 := mem_dropTrailingSlashes_subset hd
    have hd3 := mem_dropLeadingSlashes_subset hd2
    rcases List.mem_map.mp hd3 with ⟨e, _, hed⟩
    rw [← hdc]
    exact jsCharToLower_ne_backslash (hed ▸ replBackslash_ne_backslash e)

theorem head?_dropTrailingSlashes {l : List Char}
    (h : dropTrailingSlashes l ≠ []) :
    (dropTrailingSlashes l).head? = l.head? := by
  rcases dropTrailingSlashes_append l with ⟨t, ht⟩
  cases hc : dropTrailingSlashes l with
  | nil => exact absurd hc h
  | cons x xs =>
    rw [hc] at ht
    rw [← ht]
    rfl

/-- A non-empty normalized path does not start with a slash. -/
theorem normalizePath_head_ne_slash {l : List Char} {c : Char}
    (h : (normalizePath l).head? = some c) : c ≠ '/' := by
  unfold normalizePath at h
  by_cases hl : l = []
  · rw [if_pos hl] at h; simp at h
  · rw [if_neg hl] at h
    unfold lowerStr at h
    rw [List.head?_map] at h
    rcases Option.map_eq_some'.mp h with ⟨d, hd, hdc⟩
    have hne : dropTrailingSlashes (dropLeadingSlashes (l.map replBackslash)) ≠ [] := by
      intro he
      rw [he] at hd
      simp at hd
    rw [head?_dropTrailingSlashes hne] at hd
    have hfalse := dropWhile_head?_false hd
    simp at hfalse
    rw [← hdc]
    exact jsCharToLower_ne_slash hfalse

/-- A non-empty normalized path does not end with a slash. -/
theorem normalizePath_last_ne_slash {l : List Char} {c : Char}
    (h : (normalizePath l).reverse.head? = some c) : c ≠ '/' := by
  unfold normalizePath at h
  by_cases hl : l = []
  · rw [if_pos hl] at h; simp at h
  · rw [if_neg hl] at h
    unfold lowerStr at h
    rw [← List.map_reverse, List.head?_map] at h
    rcases Option.map_eq_some'.mp h with ⟨d, hd, hdc⟩
    unfold dropTrailingSlashes at hd
    rw [List.reverse_reverse] at hd
    have hfalse := dropWhile_head?_false hd
    simp at hfalse
    rw [← hdc]
    exact jsCharToLower_ne_slash hfalse

/-- A normalized path is already lower-cased. -/
theorem lowerStr_normalizePath (l : List Char) :
    lowerStr (normalizePath l) = normalizePath l := by
  unfold normalizePath
  by_cases hl : l = []
  · rw [if_pos hl]; rfl
  · rw [if_neg hl]
    unfold lowerStr
    rw [List.map_map]
    exact List.map_congr_left (fun c _ => jsCharToLower_idem c)

/-- C9 helper: the normalizer is the identity on its own output. -/
theorem normalizePath_fixed (l : List Char) :
    normalizePath (normalizePath l) = normalizePath l := by
  set m := normalizePath l with hmdef
  by_cases hm : m = []
  · rw [hm]; rfl
  · have hmap : m.map replBackslash = m := by
      have hcong : ∀ c ∈ m, replBackslash c = id c := by
        intro c hc
        unfold replBackslash
        rw [if_neg (normalizePath_no_backslash (hmdef ▸ hc))]
        rfl
      rw [List.map_congr_left hcong, List.map_id]
    have hlead : dropLeadingSlashes m = m := by
      unfold dropLeadingSlashes
      apply dropWhile_eq_self_of_head?
      intro c hc
      simp
      exact normalizePath_head_ne_slash (hmdef ▸ hc)
    have htrail : dropTrailingSlashes m = m := by
      unfold dropTrailingSlashes
      have hrev : m.reverse.dropWhile (fun c => c == '/') = m.reverse := by
        apply dropWhile_eq_self_of_head?
        intro c hc
        simp
        exact normalizePath_last_ne_slash (hmdef ▸ hc)
      rw [hrev, List.reverse_reverse]
    have hlower : lowerStr m = m := hmdef ▸ lowerStr_normalizePath l
    show normalizePath m = m
    unfold normalizePath
    rw [if_neg hm, hmap, hlead, htrail, hlower]

/-- C9: `normalizePath` is idempotent. -/
theorem normalizePath_idempotent (l : List Char) :
    normalizePath (normalizePath l) = normalizePath l :=
  normalizePath_fixed l

/-! ## Project Classifier (src/src/constants.js lines 38–46, 74–80, 283–320) -/

/-- JS truthiness of an optional string: present and non-empty. -/
def strTruthy : Option (List Char) → Bool
  | none => false
  | some l => !l.isEmpty

/-- Case-insensitive containment, the effect of a literal regex with
the `i` flag. -/
def ciContains (seg l : List Char) : Bool :=
  listContainsSeg (lowerStr seg) (lowerStr l)

/-- `EXTERNAL_PATTERNS.some(pattern => pattern.test(normalized))`:
the seven marker patterns, each `[\/\\]` expanded to its two
alternatives. -/
def matchesExternalPatterns (l : List Char) : Bool :=
  ciContains (sl "node_modules") l ||
  (ciContains (sl ".next/") l || ciContains (sl ".next\\") l) ||
  (ciContains (sl "dist/") l || ciContains (sl "dist\\") l) ||
  (ciContains (sl "build/") l || ciContains (sl "build\\") l) ||
  (ciContains (sl ".git/") l || ciContains (sl ".git\\") l) ||
  (ciContains (sl ".cache/") l || ciContains (sl ".cache\\") l) ||
  (ciContains (sl "coverage/") l || ciContains (sl "coverage\\") l)

/-- `isExternalPath` of src/src/constants.js: falsy input is not
external; otherwise the normalized path is tested against the marker
patterns. -/
def isExternalPath (l : List Char) : Bool :=
  if l = [] then false else matchesExternalPatterns (normalizePath l)

/-- `/^[a-z]:/i`: a drive-letter-prefixed path. -/
def startsWithDriveLetter (l : List Char) : Bool :=
  match l with
  | a :: b :: _ => a.isAlpha && b == ':'
  | _ => false

/-- `isProjectComponent` of src/src/constants.js.  The fiber is
represented by its optional `_debugSource.fileName`; the process-wide
`componentNameToFilesIndex` keys are passed as `nameIdx`. -/
def isProjectComponent (file? : Option (List Char)) (root? : Option (List Char))
    (name? : Option (List Char)) (nameIdx : List (List Char)) : Bool :=
  if strTruthy root? = false then true
  else if strTruthy file? then
    let f := file?.getD []
    if isExternalPath f then false
    else
      let nfp := normalizePath f
      let nroot := normalizePath (root?.getD [])
      if listStartsWith nroot nfp then true
      else if !listContainsSeg (sl "node_modules") nfp &&
              !listStartsWith (sl "/") nfp &&
              !startsWithDriveLetter nfp then true
      else false
  else if strTruthy name? then
    nameIdx.contains (lowerStr (name?.getD []))
  else false

/-- With no project root established the classifier accepts everything,
even a dependency-cache path: the claim fails at this input. -/
theorem isProjectComponent_counterexample_noRoot :
    isExternalPath (sl "pkg/node_modules/lib/a.js") = true ∧
    isProjectComponent (some (sl "pkg/node_modules/lib/a.js")) none none [] = true := by
  constructor <;> decide

/-- C2 (amended): with a truthy project root, a fiber whose
source-origin path matches a marker pattern is always external
(classified `false`); with no truthy project root, the classifier
returns `true` regardless of the path. -/
theorem isProjectComponent_external_reject :
    (∀ f root name idx, strTruthy root = true → isExternalPath f = true →
      isProjectComponent (some f) root name idx = false) ∧
    (∀ file root name idx, strTruthy root = false →
      isProjectComponent file root name idx = true) := by
  constructor
  · intro f root name idx hr hx
    have hf : f ≠ [] := by
      intro he
      rw [he] at hx
      simp [isExternalPath] at hx
    unfold isProjectComponent
    rw [hr]
    simp [strTruthy, List.isEmpty_iff, hf, hx]
  · intro file root name idx hr
    unfold isProjectComponent
    rw [hr]
    simp

/-- Witness for C2's amended theorem at concrete inputs. -/
theorem isProjectComponent_external_reject_witness :
    isProjectComponent (some (sl "pkg/node_modules/lib/a.js"))
      (some (sl "home/u/app")) none [] = false ∧
    isProjectComponent (some (sl "pkg/node_modules/lib/a.js")) none none [] = true := by
  constructor
  · exact isProjectComponent_external_reject.1 _ _ none [] (by decide) (by decide)
  · exact isProjectComponent_external_reject.2 _ none none [] (by decide)

/-! ## Source Extractor (src/lib/source-utils.js)

The regex patterns of `extractComponentNames` and
`extractJSXUsageFromFile` are hand-compiled scanners.  Each matcher
takes the text at one candidate start position and returns the
captured name together with the text after the whole match; `scanFirst`
mirrors `String.match` (first match), `scanAll` mirrors
`matchAll`/`exec` loops (leftmost matches, resuming after each
match). -/

/-- Match a literal, returning the remainder. -/
def litP : List Char → List Char → Option (List Char)
  | [], l => some l
  | _ :: _, [] => none
  | p :: ps, c :: cs => if p == c then litP ps cs else none

/-- `\s+` (maximal munch). -/
def ws1 : List Char → Option (List Char)
  | [] => none
  | c :: cs => if isSpaceChar c then some (cs.dropWhile isSpaceChar) else none

/-- `\s*` (maximal munch). -/
def ws0 (l : List Char) : List Char := l.dropWhile isSpaceChar

/-- `(\w+)` (maximal munch): captured word and remainder. -/
def word1 : List Char → Option (List Char × List Char)
  | [] => none
  | c :: cs =>
    if isWordChar c then some (c :: cs.takeWhile isWordChar, cs.dropWhile isWordChar)
    else none

/-- First match of a matcher over the text (JS `String.match` without `g`). -/
def scanFirst (m : List Char → Option (List Char × List Char)) :
    List Char → Option (List Char)
  | [] => (m []).map (fun r => r.1)
  | c :: cs =>
    match m (c :: cs) with
    | some (n, _) => some n
    | none => scanFirst m cs

/-- All matches of a matcher (JS `matchAll`): leftmost-first, resuming
after the end of each match; the fuel is the text length, enough for
matchers that always consume at least one character. -/
def scanAllAux (m : List Char → Option (List Char × List Char)) :
    Nat → List Char → List (List Char)
  | 0, _ => []
  | _ + 1, [] => []
  | fuel + 1, c :: cs =>
    match m (c :: cs) with
    | some (n, rest) => n :: scanAllAux m fuel rest
    | none => scanAllAux m fuel cs

def scanAll (m : List Char → Option (List Char × List Char)) (l : List Char) :
    List (List Char) :=
  scanAllAux m l.length l

/-- `/export\s+default\s+function\s+(\w+)/`. -/
def matchDefaultExportFunction (l : List Char) : Option (List Char × List Char) := do
  let r ← litP (sl "export") l
  let r ← ws1 r
  let r ← litP (sl "default") r
  let r ← ws1 r
  let r ← litP (sl "function") r
  let r ← ws1 r
  word1 r

/-- `/export\s+default\s+const\s+(\w+)\s*=/`. -/
def matchDefaultExportConst (l : List Char) : Option (List Char × List Char) := do
  let r ← litP (sl "export") l
  let r ← ws1 r
  let r ← litP (sl "default") r
  let r ← ws1 r
  let r ← litP (sl "const") r
  let r ← ws1 r
  let (n, r) ← word1 r
  let r ← litP (sl "=") (ws0 r)
  return (n, r)

/-- `/export\s+default\s+(\w+)\s*;/`. -/
def matchStandaloneDefaultExport (l : List Char) : Option (List Char × List Char) := do
  let r ← litP (sl "export") l
  let r ← ws1 r
  let r ← litP (sl "default") r
  let r ← ws1 r
  let (n, r) ← word1 r
  let r ← litP (sl ";") (ws0 r)
  return (n, r)

/-- `(?:\([^)]*\)\s*=>|function|React\.(?:forwardRef|memo))`, ordered
alternation as in the regex. -/
def matchFnLikeTail (l : List Char) : Option (List Char) :=
  (do
    let r ← litP (sl "(") l
    let r := r.dropWhile (fun c => !(c == ')'))
    let r ← litP (sl ")") r
    litP (sl "=>") (ws0 r)) <|>
  litP (sl "function") l <|>
  (do
    let r ← litP (sl "React.") l
    litP (sl "forwardRef") r <|> litP (sl "memo") r)

/-- `/export\s+const\s+(\w+)\s*=\s*(?:\([^)]*\)\s*=>|function|React\.(?:forwardRef|memo))/g`. -/
def matchExportConstComponent (l : List Char) : Option (List Char × List Char) := do
  let r ← litP (sl "export") l
  let r ← ws1 r
  let r ← litP (sl "const") r
  let r ← ws1 r
  let (n, r) ← word1 r
  let r ← litP (sl "=") (ws0 r)
  let r ← matchFnLikeTail (ws0 r)
  return (n, r)

/-- `/export\s+function\s+(\w+)\s*\(/g`. -/
def matchExportFunction (l : List Char) : Option (List Char × List Char) := do
  let r ← litP (sl "export") l
  let r ← ws1 r
  let r ← litP (sl "function") r
  let r ← ws1 r
  let (n, r) ← word1 r
  let r ← litP (sl "(") (ws0 r)
  return (n, r)

/-- `/export\s+class\s+(\w+)/g`. -/
def matchExportClass (l : List Char) : Option (List Char × List Char) := do
  let r ← litP (sl "export") l
  let r ← ws1 r
  let r ← litP (sl "class") r
  let r ← ws1 r
  word1 r

/-- `/(?:const|let|var)\s+(\w+)\s*=\s*(?:...)/g` (same function-like tail). -/
def matchLocalConstComponent (l : List Char) : Option (List Char × List Char) := do
  let r ← litP (sl "const") l <|> litP (sl "let") l <|> litP (sl "var") l
  let r ← ws1 r
  let (n, r) ← word1 r
  let r ← litP (sl "=") (ws0 r)
  let r ← matchFnLikeTail (ws0 r)
  return (n, r)

/-! ### The shared name / file rejection filters (src/lib/constants.js) -/

/-- `HTML_ELEMENTS` of src/lib/constants.js (the server-side array). -/
def HTML_ELEMENTS_LIB : List (List Char) :=
  [sl "div", sl "span", sl "form", sl "button", sl "input", sl "a", sl "img",
   sl "p", sl "h1", sl "h2", sl "h3", sl "h4", sl "h5", sl "h6",
   sl "ul", sl "li", sl "ol", sl "table", sl "tr", sl "td", sl "th",
   sl "thead", sl "tbody", sl "section", sl "article", sl "header",
   sl "footer", sl "nav", sl "main", sl "aside", sl "br", sl "hr",
   sl "strong", sl "em", sl "b", sl "i", sl "u", sl "label", sl "select",
   sl "option", sl "textarea", sl "fieldset", sl "legend", sl "canvas",
   sl "svg", sl "path", sl "circle", sl "rect", sl "line"]

/-- `JS_KEYWORDS` of src/lib/constants.js. -/
def JS_KEYWORDS : List (List Char) :=
  [sl "function", sl "const", sl "let", sl "var", sl "class", sl "interface",
   sl "type", sl "enum", sl "export", sl "import", sl "default", sl "return",
   sl "if", sl "else", sl "for", sl "while", sl "switch", sl "case",
   sl "break", sl "continue", sl "try", sl "catch", sl "finally", sl "throw",
   sl "new", sl "this", sl "super", sl "extends", sl "implements",
   sl "static", sl "async", sl "await", sl "promise", sl "array",
   sl "object", sl "string", sl "number", sl "boolean", sl "null",
   sl "undefined", sl "void"]

/-- `shouldExcludeName` of src/lib/source-utils.js: too short, a known
markup tag, or a language keyword/built-in (both case-insensitive). -/
def shouldExcludeName (n : List Char) : Bool :=
  n.length < 2 || HTML_ELEMENTS_LIB.contains (lowerStr n) ||
    JS_KEYWORDS.contains (lowerStr n)

/-- Case-insensitive `endsWith`. -/
def ciEndsWith (suf l : List Char) : Bool :=
  listEndsWith (lowerStr suf) (lowerStr l)

/-- `shouldExcludeFile`: the `EXCLUDED_FILE_PATTERNS` suffix tests of
src/lib/constants.js, each `(ts|js|tsx|jsx)` alternation expanded. -/
def shouldExcludeFile (fp : List Char) : Bool :=
  (ciEndsWith (sl ".styles.ts") fp || ciEndsWith (sl ".styles.js") fp ||
   ciEndsWith (sl ".styles.tsx") fp || ciEndsWith (sl ".styles.jsx") fp) ||
  (ciEndsWith (sl ".style.ts") fp || ciEndsWith (sl ".style.js") fp ||
   ciEndsWith (sl ".style.tsx") fp || ciEndsWith (sl ".style.jsx") fp) ||
  (ciEndsWith (sl ".styl.ts") fp || ciEndsWith (sl ".styl.js") fp ||
   ciEndsWith (sl ".styl.tsx") fp || ciEndsWith (sl ".styl.jsx") fp) ||
  (ciEndsWith (sl ".css.ts") fp || ciEndsWith (sl ".css.js") fp ||
   ciEndsWith (sl ".css.tsx") fp || ciEndsWith (sl ".css.jsx") fp) ||
  (ciEndsWith (sl ".test.ts") fp || ciEndsWith (sl ".test.js") fp ||
   ciEndsWith (sl ".test.tsx") fp || ciEndsWith (sl ".test.jsx") fp) ||
  (ciEndsWith (sl ".spec.ts") fp || ciEndsWith (sl ".spec.js") fp ||
   ciEndsWith (sl ".spec.tsx") fp || ciEndsWith (sl ".spec.jsx") fp) ||
  ciEndsWith (sl ".d.ts") fp

/-! ### `extractComponentNames` -/

/-- State of the extraction: the pushed `componentNames` array and the
`allNames` set (insertion order). -/
def pushNameUncond (st : List (List Char) × List (List Char)) (n? : Option (List Char)) :
    List (List Char) × List (List Char) :=
  match n? with
  | some n => if !shouldExcludeName n then (st.1 ++ [n], st.2 ++ [n]) else st
  | none => st

/-- Push guarded by membership in `allNames` (priorities 2.5–5 and the
local rule). -/
def pushNameNew (st : List (List Char) × List (List Char)) (n : List Char) :
    List (List Char) × List (List Char) :=
  if !shouldExcludeName n && !st.2.contains n then (st.1 ++ [n], st.2 ++ [n]) else st

/-- `path.basename(p)` with posix separators. -/
def afterLastSlash (l : List Char) : List Char :=
  l.foldl (fun acc c => if c == '/' then [] else acc ++ [c]) []

/-- `path.extname` on a basename: the suffix from the last dot, when
that dot is not the first character. -/
def extnameOf (seg : List Char) : List Char :=
  let tailLen := (seg.reverse.takeWhile (fun c => !(c == '.'))).length
  if tailLen < seg.length ∧ seg.length - tailLen - 1 > 0 then
    seg.drop (seg.length - tailLen - 1)
  else []

/-- `path.basename(filePath, path.extname(filePath))`. -/
def fileBaseNameNoExt (fp : List Char) : List Char :=
  let seg := afterLastSlash fp
  let ext := extnameOf seg
  if ext ≠ [] ∧ seg ≠ ext ∧ listEndsWith ext seg then
    seg.take (seg.length - ext.length)
  else seg

/-- Priority 2.5's guarded push (`standaloneDefaultExport`). -/
def pushStandalone (st : List (List Char) × List (List Char))
    (n? : Option (List Char)) : List (List Char) × List (List Char) :=
  match n? with
  | some n => pushNameNew st n
  | none => st

/-- Priorities 1–2.5 of `extractComponentNames`. -/
def extractDefaultStages (content : List Char) :
    List (List Char) × List (List Char) :=
  pushStandalone
    (pushNameUncond
      (pushNameUncond ([], []) (scanFirst matchDefaultExportFunction content))
      (scanFirst matchDefaultExportConst content))
    (scanFirst matchStandaloneDefaultExport content)

/-- Priorities 1–5 of `extractComponentNames`. -/
def extractExportStages (content : List Char) :
    List (List Char) × List (List Char) :=
  (scanAll matchExportClass content).foldl pushNameNew
    ((scanAll matchExportFunction content).foldl pushNameNew
      ((scanAll matchExportConstComponent content).foldl pushNameNew
        (extractDefaultStages content)))

/-- Priorities 1–5 plus the local-declaration rule, which runs only when
no exported component was found. -/
def extractWithLocal (content : List Char) :
    List (List Char) × List (List Char) :=
  if (extractExportStages content).1.isEmpty then
    (scanAll matchLocalConstComponent content).foldl pushNameNew
      (extractExportStages content)
  else extractExportStages content

/-- `extractComponentNames` of src/lib/source-utils.js, with the file's
text supplied instead of read from disk.  Priorities 1–5 all run and
accumulate (deduplicated through `allNames`); the local-declaration
rule and the filename fallback run only when nothing has been pushed. -/
def extractComponentNames (filePath content : List Char) : List (List Char) :=
  if shouldExcludeFile filePath then []
  else if (extractWithLocal content).1.isEmpty then
    (if !shouldExcludeName (fileBaseNameNoExt filePath) then
      [fileBaseNameNoExt filePath] else [])
  else (extractWithLocal content).1

/-! ### C1: the priority rules accumulate instead of short-circuiting -/

/-- The running invariant of the extraction state: `allNames` and
`componentNames` agree on membership (every push is paired with an
`allNames.add`). -/
def extractInv (st : List (List Char) × List (List Char)) : Prop :=
  ∀ x, x ∈ st.2 ↔ x ∈ st.1

theorem extractInv_nil : extractInv (([], []) : List (List Char) × List (List Char)) := by
  intro x; simp

theorem extractInv_pushNameUncond {st : List (List Char) × List (List Char)}
    (h : extractInv st) (n? : Option (List Char)) :
    extractInv (pushNameUncond st n?) := by
  cases n? with
  | none => exact h
  | some n =>
    unfold pushNameUncond
    by_cases he : shouldExcludeName n = true
    · simp only [he]
      simpa using h
    · have he2 : shouldExcludeName n = false := by
        cases hv : shouldExcludeName n
        · rfl
        · exact absurd hv he
      simp only [he2]
      intro x
      simp [List.mem_append, h x]

theorem extractInv_pushNameNew {st : List (List Char) × List (List Char)}
    (h : extractInv st) (n : List Char) : extractInv (pushNameNew st n) := by
  unfold pushNameNew
  by_cases hc : (!shouldExcludeName n && !st.2.contains n) = true
  · rw [if_pos hc]
    intro x
    simp [List.mem_append, h x]
  · rw [if_neg hc]
    exact h

theorem extractInv_pushStandalone {st : List (List Char) × List (List Char)}
    (h : extractInv st) (n? : Option (List Char)) :
    extractInv (pushStandalone st n?) := by
  cases n? with
  | none => exact h
  | some n => exact extractInv_pushNameNew h n

theorem extractInv_foldl {ns : List (List Char)}
    {st : List (List Char) × List (List Char)} (h : extractInv st) :
    extractInv (ns.foldl pushNameNew st) := by
  induction ns generalizing st with
  | nil => exact h
  | cons m ms ih => exact ih (extractInv_pushNameNew h m)

theorem extractInv_defaultStages (content : List Char) :
    extractInv (extractDefaultStages content) := by
  unfold extractDefaultStages
  exact extractInv_pushStandalone
    (extractInv_pushNameUncond (extractInv_pushNameUncond extractInv_nil _) _) _

theorem mem_pushNameNew {st : List (List Char) × List (List Char)}
    {x : List Char} (h : x ∈ st.1) (n : List Char) : x ∈ (pushNameNew st n).1 := by
  unfold pushNameNew
  by_cases hc : (!shouldExcludeName n && !st.2.contains n) = true
  · rw [if_pos hc]
    exact List.mem_append_left _ h
  · rw [if_neg hc]
    exact h

theorem mem_foldl_pushNameNew {ns : List (List Char)}
    {st : List (List Char) × List (List Char)} {x : List Char}
    (h : x ∈ st.1) : x ∈ (ns.foldl pushNameNew st).1 := by
  induction ns generalizing st with
  | nil => exact h
  | cons m ms ih => exact ih (mem_pushNameNew h m)

/-- A non-excluded name produced by a `matchAll` rule always ends up in
`componentNames`: the rule's loop pushes it unless it is already there. -/
theorem mem_foldl_pushNameNew_of_mem {ns : List (List Char)}
    {st : List (List Char) × List (List Char)} {n : List Char}
    (hinv : extractInv st) (hn : n ∈ ns) (he : shouldExcludeName n = false) :
    n ∈ (ns.foldl pushNameNew st).1 := by
  induction ns generalizing st with
  | nil => cases hn
  | cons m ms ih =>
    rw [List.foldl_cons]
    rcases List.mem_cons.mp hn with heq | hmem
    · subst heq
      apply mem_foldl_pushNameNew
      unfold pushNameNew
      by_cases hc : (!shouldExcludeName n && !st.2.contains n) = true
      · rw [if_pos hc]
        simp
      · rw [if_neg hc]
        have hcont : st.2.contains n = true := by
          cases hv : st.2.contains n
          · exact absurd (by rw [he, hv]; rfl) hc
          · rfl
        exact (hinv n).mp (by simpa using hcont)
    · exact ih (extractInv_pushNameNew hinv m) hmem

/-- The example file text of the spec: a default-exported named function
and a named exported arrow-function constant. -/
def exampleDeclText : List Char :=
  sl "export default function Foo()\x7b\x7d\nexport const Bar = () => \x7b\x7d"

/-- C1 counterexample: on the spec's own example, declaration-mode
extraction returns both names, not only the default export. -/
theorem extractComponentNames_priority_counterexample :
    extractComponentNames (sl "src/Foo.jsx") exampleDeclText =
      [sl "Foo", sl "Bar"] ∧
    extractComponentNames (sl "src/Foo.jsx") exampleDeclText ≠ [sl "Foo"] := by
  constructor <;> decide

/-- C1 (amended): declaration mode applies the five export-pattern rules
cumulatively in priority order (deduplicating across rules); only the
local-declaration rule and the filename fallback are gated on nothing
having matched.  On the spec's example it returns both `Foo` and `Bar`;
in general every non-excluded match of the exported-const rule reaches
the result even when a higher-priority rule already matched. -/
theorem extractComponentNames_cumulative :
    (extractComponentNames (sl "src/Foo.jsx") exampleDeclText =
      [sl "Foo", sl "Bar"]) ∧
    (∀ fp content n, shouldExcludeFile fp = false →
      n ∈ scanAll matchExportConstComponent content →
      shouldExcludeName n = false →
      n ∈ extractComponentNames fp content) := by
  constructor
  · decide
  · intro fp content n hfp hn he
    have hmem : n ∈ (extractExportStages content).1 := by
      unfold extractExportStages
      apply mem_foldl_pushNameNew
      apply mem_foldl_pushNameNew
      exact mem_foldl_pushNameNew_of_mem (extractInv_defaultStages content) hn he
    have hst : n ∈ (extractWithLocal content).1 := by
      unfold extractWithLocal
      rw [if_neg]
      · exact hmem
      · simp [List.isEmpty_iff]
        exact List.ne_nil_of_mem hmem
    unfold extractComponentNames
    rw [if_neg (by simp [hfp]), if_neg]
    · exact hst
    · simp [List.isEmpty_iff]
      exact List.ne_nil_of_mem hst

/-- Witness for C1's amended theorem: on the example text, `Bar` (a
match of the exported-const rule) is in the extraction result although
the default-export rule already matched `Foo`. -/
theorem extractComponentNames_cumulative_witness :
    sl "Bar" ∈ extractComponentNames (sl "src/Foo.jsx") exampleDeclText :=
  extractComponentNames_cumulative.2 (sl "src/Foo.jsx") exampleDeclText
    (sl "Bar") (by decide) (by decide) (by decide)

/-! ### C5: `extractJSXUsageFromFile` (src/lib/source-utils.js lines 157–213) -/

/-- `HTML_ELEMENTS.map(el => el.toLowerCase())` — the rejection set of
the usage scanner. -/
def htmlElementsSetLib : List (List Char) := HTML_ELEMENTS_LIB.map lowerStr

/-- The final `(?:\s|>|\/)` character class of the opening-tag patterns. -/
def matchTagEnd : List Char → Option (List Char)
  | [] => none
  | c :: cs => if isSpaceChar c || c == '>' || c == '/' then some cs else none

/-- `/<(\w+)(?:\.\w+)?\s*\/>/g`: the captured group is the segment
before the optional dot. -/
def matchSelfClosing (l : List Char) : Option (List Char × List Char) := do
  let r ← litP (sl "<") l
  let (n, r) ← word1 r
  (do
    let r2 ← litP (sl ".") r
    let (_, r3) ← word1 r2
    let r4 ← litP (sl "/>") (ws0 r3)
    return (n, r4)) <|>
  (do
    let r2 ← litP (sl "/>") (ws0 r)
    return (n, r2))

/-- `/<(\w+)(?:\.(\w+))?(?:\s|>|\/)/g`: yields the namespaced trailing
segment when the dot group matched, the base name otherwise. -/
def matchOpeningTag (l : List Char) : Option (List Char × List Char) := do
  let r ← litP (sl "<") l
  let (base, r) ← word1 r
  (do
    let r2 ← litP (sl ".") r
    let (ns, r3) ← word1 r2
    let r4 ← matchTagEnd r3
    return (ns, r4)) <|>
  (do
    let r2 ← matchTagEnd r
    return (base, r2))

/-- The lazy `[^}]*?` of the conditional pattern: advance over
non-`}` characters to the nearest position where the tag pattern
matches. -/
def condScanAfterBrace : List Char → Option (List Char × List Char)
  | [] => none
  | c :: cs =>
    match matchOpeningTag (c :: cs) with
    | some res => some res
    | none => if c == '\x7d' then none else condScanAfterBrace cs

/-- `/\{[^}]*?<(\w+)(?:\.(\w+))?(?:\s|>|\/)/g`. -/
def matchConditional (l : List Char) : Option (List Char × List Char) := do
  let r ← litP (sl "\x7b") l
  condScanAfterBrace r

/-- One `usedComponents.add` guarded by the markup/keyword filter. -/
def addUsage (acc : List (List Char)) (n : List Char) : List (List Char) :=
  if !htmlElementsSetLib.contains (lowerStr n) && !shouldExcludeName n then
    (if acc.contains n then acc else acc ++ [n])
  else acc

/-- `extractJSXUsageFromFile` of src/lib/source-utils.js: the three
usage scans (self-closing, opening tag, brace-delimited expression)
unioned in insertion order. -/
def extractJSXUsageFromFile (filePath content : List Char) : List (List Char) :=
  if shouldExcludeFile filePath then []
  else
    (scanAll matchConditional content).foldl addUsage
      ((scanAll matchOpeningTag content).foldl addUsage
        ((scanAll matchSelfClosing content).foldl addUsage []))

theorem mem_addUsage {acc : List (List Char)} {m n : List Char}
    (h : n ∈ addUsage acc m) :
    n ∈ acc ∨ (n = m ∧ htmlElementsSetLib.contains (lowerStr m) = false ∧
      shouldExcludeName m = false) := by
  unfold addUsage at h
  by_cases hg : (!htmlElementsSetLib.contains (lowerStr m) && !shouldExcludeName m) = true
  · rw [if_pos hg] at h
    by_cases hc : acc.contains m = true
    · rw [if_pos hc] at h
      exact Or.inl h
    · rw [if_neg hc] at h
      rcases List.mem_append.mp h with hl | hr
      · exact Or.inl hl
      · simp at hr
        have ha : htmlElementsSetLib.contains (lowerStr m) = false := by
          cases hv : htmlElementsSetLib.contains (lowerStr m)
          · rfl
          · rw [hv] at hg; simp at hg
        have hb : shouldExcludeName m = false := by
          cases hv : shouldExcludeName m
          · rfl
          · rw [hv] at hg; simp at hg
        exact Or.inr ⟨hr, ha, hb⟩
  · rw [if_neg hg] at h
    exact Or.inl h

theorem mem_foldl_addUsage {ns acc : List (List Char)} {n : List Char}
    (h : n ∈ ns.foldl addUsage acc) :
    n ∈ acc ∨ (htmlElementsSetLib.contains (lowerStr n) = false ∧
      shouldExcludeName n = false) := by
  induction ns generalizing acc with
  | nil => exact Or.inl h
  | cons m ms ih =>
    rw [List.foldl_cons] at h
    rcases ih h with hacc | hg
    · rcases mem_addUsage hacc with hl | ⟨heq, h1, h2⟩
      · exact Or.inl hl
      · subst heq
        exact Or.inr ⟨h1, h2⟩
    · exact Or.inr hg

/-- The usage text of the spec's example: a namespaced self-closing tag
and a plain markup tag. -/
def exampleUsageText : List Char := sl "<Foo.Bar />\n<div>x</div>"

/-- C5 counterexample: the self-closing rule records the leading segment
`Foo` of the dotted tag, so the result is not the singleton `Bar`. -/
theorem extractJSXUsage_counterexample :
    sl "Foo" ∈ extractJSXUsageFromFile (sl "src/App.jsx") exampleUsageText ∧
    extractJSXUsageFromFile (sl "src/App.jsx") exampleUsageText ≠ [sl "Bar"] := by
  constructor <;> decide

/-- C5 (amended): on the example, usage-mode extraction returns both
`Foo` (the self-closing rule keeps the leading segment of a dotted tag)
and `Bar` (the opening-tag rule keeps the trailing segment); and in
general no known markup-tag name is ever returned. -/
theorem extractJSXUsage_segments_no_markup :
    (extractJSXUsageFromFile (sl "src/App.jsx") exampleUsageText =
      [sl "Foo", sl "Bar"]) ∧
    (∀ fp content n, n ∈ extractJSXUsageFromFile fp content →
      htmlElementsSetLib.contains (lowerStr n) = false) := by
  constructor
  · decide
  · intro fp content n h
    unfold extractJSXUsageFromFile at h
    by_cases hfp : shouldExcludeFile fp = true
    · rw [if_pos hfp] at h
      cases h
    · rw [if_neg hfp] at h
      rcases mem_foldl_addUsage h with h2 | hg
      · rcases mem_foldl_addUsage h2 with h3 | hg
        · rcases mem_foldl_addUsage h3 with h4 | hg
          · cases h4
          · exact hg.1
        · exact hg.1
      · exact hg.1

/-- Witness for C5's amended theorem: `Foo` is in the example's result,
and is (by the theorem) not a markup tag. -/
theorem extractJSXUsage_segments_no_markup_witness :
    htmlElementsSetLib.contains (lowerStr (sl "Foo")) = false :=
  extractJSXUsage_segments_no_markup.2 (sl "src/App.jsx") exampleUsageText
    (sl "Foo") (by decide)

/-! ## Disambiguator (`findComponentFile`, src/lib/source-utils.js lines 508–538)

The Source Map is an association list (JS object, unique keys, lookup
and in-place update of the first binding).  A map value is either a
legacy plain path string or an array of candidate entries. -/

structure Candidate where
  path : List Char
  context : Option (List (List Char))
  priority : Option Nat
deriving DecidableEq

/-- `b.priority || 0`. -/
def candPriority (c : Candidate) : Nat := c.priority.getD 0

inductive SourceEntry
  | strVal (s : List Char)
  | arrVal (cs : List Candidate)
deriving DecidableEq

abbrev Sources := List (List Char × SourceEntry)

def lookupSrc (k : List Char) : Sources → Option SourceEntry
  | [] => none
  | (k2, v) :: rest => if k2 == k then some v else lookupSrc k rest

def updateSrc (k : List Char) (v : SourceEntry) : Sources → Sources
  | [] => []
  | (k2, v2) :: rest =>
    if k2 == k then (k2, v) :: rest else (k2, v2) :: updateSrc k v rest

/-- `c.context && (c.context.includes(parent) || c.context.some(ctx =>
ctx.toLowerCase() === parent.toLowerCase()))`. -/
def contextMatches (parent : List Char) (c : Candidate) : Bool :=
  match c.context with
  | none => false
  | some ctx => ctx.contains parent || ctx.any (fun x => lowerStr x == lowerStr parent)

/-- `hierarchy.indexOf(componentName)` and the `componentIndex > 0`
parent selection. -/
def hierarchyParent (name : List Char) (hierarchy : List (List Char)) :
    Option (List Char) :=
  match hierarchy.findIdx? (fun x => x == name) with
  | some idx => if idx > 0 then hierarchy[idx - 1]? else none
  | none => none

/-- One step of the stable insertion sort realizing
`candidates.sort((a, b) => (b.priority || 0) - (a.priority || 0))`
(ES2019 `Array.prototype.sort` is stable). -/
def insertDesc (c : Candidate) : List Candidate → List Candidate
  | [] => [c]
  | d :: ds =>
    if candPriority d > candPriority c then d :: insertDesc c ds else c :: d :: ds

def sortCandidatesDesc : List Candidate → List Candidate
  | [] => []
  | c :: cs => insertDesc c (sortCandidatesDesc cs)

/-- The first candidate attaining the maximal priority tier
(first-encountered tie-breaking). -/
def firstMaxCand : List Candidate → Option Candidate
  | [] => none
  | c :: cs =>
    match firstMaxCand cs with
    | none => some c
    | some d => if candPriority d > candPriority c then some d else some c

/-- The shared tail of `findComponentFile`: sort in place (mutating the
stored array) and answer with the first sorted candidate. -/
def findSortBranch (name : List Char) (cs : List Candidate) (sources : Sources) :
    Option (List Char) × Sources :=
  ((sortCandidatesDesc cs).head?.map Candidate.path,
    updateSrc name (.arrVal (sortCandidatesDesc cs)) sources)

/-- `findComponentFile` of src/lib/source-utils.js, with the mutation of
the stored candidate array made explicit in the returned map. -/
def findComponentFile (name : List Char) (hierarchy : List (List Char))
    (sources : Sources) : Option (List Char) × Sources :=
  if name = [] then (none, sources)
  else
    match lookupSrc name sources with
    | none => (none, sources)
    | some (.strVal s) => (some s, sources)
    | some (.arrVal cs) =>
      if cs.isEmpty then (none, sources)
      else if cs.length == 1 then (cs.head?.map Candidate.path, sources)
      else
        match hierarchyParent name hierarchy with
        | some parent =>
          if parent.isEmpty then findSortBranch name cs sources
          else
            match cs.find? (contextMatches parent) with
            | some c => (some c.path, sources)
            | none => findSortBranch name cs sources
        | none => findSortBranch name cs sources

/-! ### Facts about the candidate sort -/

theorem insertDesc_ne_nil (c : Candidate) (l : List Candidate) :
    insertDesc c l ≠ [] := by
  cases l with
  | nil => simp [insertDesc]
  | cons d ds =>
    unfold insertDesc
    by_cases hp : candPriority d > candPriority c
    · rw [if_pos hp]; simp
    · rw [if_neg hp]; simp

theorem sortCandidatesDesc_eq_nil {cs : List Candidate}
    (h : sortCandidatesDesc cs = []) : cs = [] := by
  cases cs with
  | nil => rfl
  | cons c cs => exact absurd h (insertDesc_ne_nil c _)

/-- The head of the stable descending sort is the first candidate with
maximal priority. -/
theorem sortCandidatesDesc_head (cs : List Candidate) :
    (sortCandidatesDesc cs).head? = firstMaxCand cs := by
  induction cs with
  | nil => rfl
  | cons c cs ih =>
    show (insertDesc c (sortCandidatesDesc cs)).head? = firstMaxCand (c :: cs)
    cases hs : sortCandidatesDesc cs with
    | nil =>
      have hcs : cs = [] := sortCandidatesDesc_eq_nil hs
      subst hcs
      simp [insertDesc, firstMaxCand]
    | cons d ds =>
      rw [hs] at ih
      unfold insertDesc firstMaxCand
      rw [← ih]
      by_cases hp : candPriority d > candPriority c
      · rw [if_pos hp]
        simp [hp]
      · rw [if_neg hp]
        simp [hp]

theorem insertDesc_perm (c : Candidate) (l : List Candidate) :
    List.Perm (insertDesc c l) (c :: l) := by
  induction l with
  | nil => exact List.Perm.refl _
  | cons d ds ih =>
    unfold insertDesc
    by_cases hp : candPriority d > candPriority c
    · rw [if_pos hp]
      exact (List.Perm.cons d ih).trans (List.Perm.swap c d ds)
    · rw [if_neg hp]

theorem sortCandidatesDesc_perm (cs : List Candidate) :
    List.Perm (sortCandidatesDesc cs) cs := by
  induction cs with
  | nil => exact List.Perm.refl _
  | cons c cs ih =>
    exact (insertDesc_perm c (sortCandidatesDesc cs)).trans (List.Perm.cons c ih)

theorem insertDesc_pairwise {c : Candidate} {l : List Candidate}
    (h : List.Pairwise (fun a b => candPriority b ≤ candPriority a) l) :
    List.Pairwise (fun a b => candPriority b ≤ candPriority a) (insertDesc c l) := by
  induction l with
  | nil => simp [insertDesc]
  | cons d ds ih =>
    rcases List.pairwise_cons.mp h with ⟨hd, hds⟩
    unfold insertDesc
    by_cases hp : candPriority d > candPriority c
    · rw [if_pos hp]
      refine List.pairwise_cons.mpr ⟨?_, ih hds⟩
      intro x hx
      have hx2 : x ∈ c :: ds := (insertDesc_perm c ds).mem_iff.mp hx
      rcases List.mem_cons.mp hx2 with hxc | hxds
      · subst hxc; omega
      · exact hd x hxds
    · rw [if_neg hp]
      refine List.pairwise_cons.mpr ⟨?_, h⟩
      intro x hx
      rcases List.mem_cons.mp hx with hxd | hxds
      · subst hxd; omega
      · have := hd x hxds
        omega

theorem sortCandidatesDesc_pairwise (cs : List Candidate) :
    List.Pairwise (fun a b => candPriority b ≤ candPriority a)
      (sortCandidatesDesc cs) := by
  induction cs with
  | nil => simp [sortCandidatesDesc]
  | cons c cs ih => exact insertDesc_pairwise ih

/-! ### Lookup/update facts for the Source Map -/

theorem lookupSrc_updateSrc_ne {k name : List Char} {v : SourceEntry}
    {s : Sources} (h : k ≠ name) :
    lookupSrc k (updateSrc name v s) = lookupSrc k s := by
  induction s with
  | nil => rfl
  | cons p rest ih =>
    obtain ⟨k2, v2⟩ := p
    unfold updateSrc
    by_cases hk : (k2 == name) = true
    · rw [if_pos hk]
      have hk2 : k2 = name := by simpa using hk
      subst hk2
      unfold lookupSrc
      rw [if_neg (by simpa using Ne.symm h), if_neg (by simpa using Ne.symm h)]
    · rw [if_neg hk]
      unfold lookupSrc
      by_cases hkk : (k2 == k) = true
      · rw [if_pos hkk, if_pos hkk]
      · rw [if_neg hkk, if_neg hkk]
        exact ih

theorem lookupSrc_updateSrc_self {name : List Char} {v w : SourceEntry}
    {s : Sources} (h : lookupSrc name s = some w) :
    lookupSrc name (updateSrc name v s) = some v := by
  induction s with
  | nil => simp [lookupSrc] at h
  | cons p rest ih =>
    obtain ⟨k2, v2⟩ := p
    unfold updateSrc
    by_cases hk : (k2 == name) = true
    · rw [if_pos hk]
      unfold lookupSrc
      rw [if_pos hk]
    · rw [if_neg hk]
      unfold lookupSrc
      rw [if_neg hk]
      unfold lookupSrc at h
      rw [if_neg hk] at h
      exact ih h

/-! ### C8: resolution order of the Disambiguator -/

/-- No context match will be found: the name has no truthy predecessor
in the hierarchy, or no candidate's context matches it. -/
def noContextMatch (name : List Char) (hier : List (List Char))
    (cs : List Candidate) : Bool :=
  match hierarchyParent name hier with
  | some parent => parent.isEmpty || (cs.find? (contextMatches parent)).isNone
  | none => true

/-- The branch condition under which `findComponentFile` sorts (and
thereby mutates) the stored candidate array. -/
def sortConditionB (name : List Char) (hier : List (List Char))
    (sources : Sources) : Bool :=
  !(name == []) &&
  match lookupSrc name sources with
  | some (.arrVal cs) => decide (2 ≤ cs.length) && noContextMatch name hier cs
  | _ => false

/-- The spec's disambiguation example. -/
def exampleSources : Sources :=
  [(sl "Header", .arrVal
    [⟨sl "/a/Header.tsx", some [sl "nav"], none⟩,
     ⟨sl "/b/Header.tsx", some [sl "footer"], none⟩])]

theorem isEmpty_false_of_ne_nil {l : List Char} (h : l ≠ []) :
    l.isEmpty = false := by
  cases l with
  | nil => exact absurd rfl h
  | cons a as => rfl

theorem length_ge_two_isEmpty {cs : List Candidate} (h : 2 ≤ cs.length) :
    cs.isEmpty = false := by
  cases cs with
  | nil => simp at h
  | cons c cs => rfl

theorem length_ge_two_beq_one {cs : List Candidate} (h : 2 ≤ cs.length) :
    (cs.length == 1) = false := by
  have : cs.length ≠ 1 := by omega
  simpa using this

/-- C8: the Disambiguator's resolution order.  No candidates: none.
One candidate: its path.  Several: the first candidate whose context
contains the hierarchy predecessor (exact or case-insensitive),
otherwise the first-encountered candidate of maximal priority.  On the
spec's example it resolves to `/a/Header.tsx`. -/
theorem findComponentFile_resolution :
    (∀ name hier (sources : Sources), lookupSrc name sources = none →
      (findComponentFile name hier sources).1 = none) ∧
    (∀ name hier sources c, name ≠ [] →
      lookupSrc name sources = some (.arrVal [c]) →
      (findComponentFile name hier sources).1 = some c.path) ∧
    (∀ name hier sources cs parent c, name ≠ [] →
      lookupSrc name sources = some (.arrVal cs) → 2 ≤ cs.length →
      hierarchyParent name hier = some parent → parent ≠ [] →
      cs.find? (contextMatches parent) = some c →
      (findComponentFile name hier sources).1 = some c.path) ∧
    (∀ name hier sources cs, name ≠ [] →
      lookupSrc name sources = some (.arrVal cs) → 2 ≤ cs.length →
      noContextMatch name hier cs = true →
      (findComponentFile name hier sources).1 =
        (firstMaxCand cs).map Candidate.path) ∧
    ((findComponentFile (sl "Header") [sl "Page", sl "Nav", sl "Header"]
        exampleSources).1 = some (sl "/a/Header.tsx")) := by
  refine ⟨?_, ?_, ?_, ?_, ?_⟩
  · intro name hier sources h
    unfold findComponentFile
    by_cases hn : name = []
    · rw [if_pos hn]
    · rw [if_neg hn, h]
  · intro name hier sources c hn h
    unfold findComponentFile
    rw [if_neg hn, h]
    rfl
  · intro name hier sources cs parent c hn hlk hlen hpar hpne hfind
    unfold findComponentFile
    rw [if_neg hn]
    simp only [hlk]
    rw [length_ge_two_isEmpty hlen, length_ge_two_beq_one hlen]
    simp only [hpar]
    rw [isEmpty_false_of_ne_nil hpne]
    simp only [hfind]
    rfl
  · intro name hier sources cs hn hlk hlen hnc
    unfold findComponentFile
    rw [if_neg hn]
    simp only [hlk]
    rw [length_ge_two_isEmpty hlen, length_ge_two_beq_one hlen]
    unfold noContextMatch at hnc
    cases hp : hierarchyParent name hier with
    | none =>
      show Option.map Candidate.path (sortCandidatesDesc cs).head? =
        Option.map Candidate.path (firstMaxCand cs)
      rw [sortCandidatesDesc_head]
    | some parent =>
      rw [hp] at hnc
      simp only [] at hnc
      simp only []
      by_cases hpe : parent.isEmpty = true
      · rw [if_pos hpe]
        show Option.map Candidate.path (sortCandidatesDesc cs).head? =
          Option.map Candidate.path (firstMaxCand cs)
        rw [sortCandidatesDesc_head]
      · have hpef : parent.isEmpty = false := by
          cases hv : parent.isEmpty
          · rfl
          · exact absurd hv hpe
        rw [hpef] at hnc
        simp only [Bool.false_or] at hnc
        have hfn : cs.find? (contextMatches parent) = none :=
          Option.isNone_iff_eq_none.mp hnc
        rw [if_neg hpe]
        simp only [hfn]
        show Option.map Candidate.path (sortCandidatesDesc cs).head? =
          Option.map Candidate.path (firstMaxCand cs)
        rw [sortCandidatesDesc_head]
  · decide

/-- Witness for C8 at concrete inputs: one per resolution branch. -/
theorem findComponentFile_resolution_witness :
    (findComponentFile (sl "X") [] []).1 = none ∧
    (findComponentFile (sl "One") []
      [(sl "One", .arrVal [⟨sl "/x/One.tsx", none, some 3⟩])]).1 =
        some (sl "/x/One.tsx") ∧
    (findComponentFile (sl "Header") [sl "Page", sl "Nav", sl "Header"]
      exampleSources).1 = some (sl "/a/Header.tsx") ∧
    (findComponentFile (sl "Dup") []
      [(sl "Dup", .arrVal [⟨sl "/lo/Dup.js", none, some 2⟩,
        ⟨sl "/hi/Dup.tsx", none, some 3⟩,
        ⟨sl "/hi2/Dup.tsx", none, some 3⟩])]).1 = some (sl "/hi/Dup.tsx") := by
  refine ⟨?_, ?_, ?_, ?_⟩
  · exact findComponentFile_resolution.1 (sl "X") [] [] (by decide)
  · exact findComponentFile_resolution.2.1 (sl "One") []
      [(sl "One", .arrVal [⟨sl "/x/One.tsx", none, some 3⟩])]
      ⟨sl "/x/One.tsx", none, some 3⟩ (by decide) (by decide)
  · exact findComponentFile_resolution.2.2.1 (sl "Header")
      [sl "Page", sl "Nav", sl "Header"] exampleSources
      [⟨sl "/a/Header.tsx", some [sl "nav"], none⟩,
       ⟨sl "/b/Header.tsx", some [sl "footer"], none⟩]
      (sl "Nav") ⟨sl "/a/Header.tsx", some [sl "nav"], none⟩
      (by decide) (by decide) (by decide) (by decide) (by decide) (by decide)
  · exact (findComponentFile_resolution.2.2.2.1 (sl "Dup") []
      [(sl "Dup", .arrVal [⟨sl "/lo/Dup.js", none, some 2⟩,
        ⟨sl "/hi/Dup.tsx", none, some 3⟩, ⟨sl "/hi2/Dup.tsx", none, some 3⟩])]
      [⟨sl "/lo/Dup.js", none, some 2⟩, ⟨sl "/hi/Dup.tsx", none, some 3⟩,
        ⟨sl "/hi2/Dup.tsx", none, some 3⟩]
      (by decide) (by decide) (by decide) (by decide)).trans (by decide)

/-! ### C10: the Disambiguator's only side effect is the in-place sort -/

theorem sortConditionB_false_snd {name : List Char} {hier : List (List Char)}
    {sources : Sources} (h : sortConditionB name hier sources = false) :
    (findComponentFile name hier sources).2 = sources := by
  unfold sortConditionB at h
  unfold findComponentFile
  by_cases hn : name = []
  · rw [if_pos hn]
  · rw [if_neg hn]
    have hnb : (name == []) = false := by simpa using hn
    rw [hnb] at h
    simp only [Bool.not_false, Bool.true_and] at h
    cases hlk : lookupSrc name sources with
    | none => rfl
    | some v =>
      rw [hlk] at h
      cases v with
      | strVal s => rfl
      | arrVal cs =>
        simp only [] at h
        simp only []
        by_cases he : cs.isEmpty = true
        · rw [he]
          rfl
        · have hef : cs.isEmpty = false := by
            cases hv : cs.isEmpty
            · rfl
            · exact absurd hv he
          have hne : cs ≠ [] := by
            intro hcs
            rw [hcs] at hef
            simp at hef
          rw [hef]
          by_cases h1 : (cs.length == 1) = true
          · rw [h1]
            rfl
          · have h1f : (cs.length == 1) = false := by
              cases hv : cs.length == 1
              · rfl
              · exact absurd hv h1
            rw [h1f]
            have hlen : 2 ≤ cs.length := by
              have hl1 : cs.length ≠ 1 := by simpa using h1
              have hl0 : cs.length ≠ 0 := by
                intro h0
                exact hne (List.length_eq_zero.mp h0)
              omega
            rw [decide_eq_true hlen, Bool.true_and] at h
            unfold noContextMatch at h
            cases hp : hierarchyParent name hier with
            | none => rw [hp] at h; simp at h
            | some parent =>
              rw [hp] at h
              simp only [Bool.or_eq_false_iff] at h
              simp only []
              rw [h.1]
              cases hf : cs.find? (contextMatches parent) with
              | some c => rfl
              | none => rw [hf] at h; simp at h

theorem sortConditionB_true_snd {name : List Char} {hier : List (List Char)}
    {sources : Sources} (h : sortConditionB name hier sources = true) :
    ∃ cs, lookupSrc name sources = some (.arrVal cs) ∧
      (findComponentFile name hier sources).2 =
        updateSrc name (.arrVal (sortCandidatesDesc cs)) sources := by
  unfold sortConditionB at h
  by_cases hn : name = []
  · rw [hn] at h
    simp at h
  · have hnb : (name == []) = false := by simpa using hn
    rw [hnb] at h
    simp only [Bool.not_false, Bool.true_and] at h
    cases hlk : lookupSrc name sources with
    | none => rw [hlk] at h; simp at h
    | some v =>
      rw [hlk] at h
      cases v with
      | strVal s => simp at h
      | arrVal cs =>
        simp only [] at h
        simp only [Bool.and_eq_true] at h
        obtain ⟨hlen2, hnc⟩ := h
        have hlen : 2 ≤ cs.length := of_decide_eq_true hlen2
        refine ⟨cs, rfl, ?_⟩
        unfold findComponentFile
        rw [if_neg hn]
        simp only [hlk]
        rw [length_ge_two_isEmpty hlen, length_ge_two_beq_one hlen]
        unfold noContextMatch at hnc
        cases hp : hierarchyParent name hier with
        | none => rfl
        | some parent =>
          rw [hp] at hnc
          simp only [] at hnc
          simp only []
          by_cases hpe : parent.isEmpty = true
          · rw [if_pos hpe]
            rfl
          · have hpef : parent.isEmpty = false := by
              cases hv : parent.isEmpty
              · rfl
              · exact absurd hv hpe
            rw [hpef] at hnc
            simp only [Bool.false_or] at hnc
            have hfn : cs.find? (contextMatches parent) = none :=
              Option.isNone_iff_eq_none.mp hnc
            rw [if_neg hpe]
            simp only [hfn]
            rfl

/-- C10: `findComponentFile` never adds or removes candidate entries,
but it is not side-effect free: exactly under the sort condition (two
or more stored candidates, no successful context match) the stored list
for the resolved name is replaced by its stable permutation in
non-increasing priority order; every other entry, and every other
branch, leaves the Source Map unchanged. -/
theorem findComponentFile_frame :
    (∀ name hier (sources : Sources) k, k ≠ name →
      lookupSrc k (findComponentFile name hier sources).2 = lookupSrc k sources) ∧
    (∀ name hier (sources : Sources) cs,
      lookupSrc name sources = some (.arrVal cs) →
      ∃ cs2, lookupSrc name (findComponentFile name hier sources).2 =
        some (.arrVal cs2) ∧ List.Perm cs2 cs) ∧
    (∀ name hier (sources : Sources), sortConditionB name hier sources = true →
      ∃ cs, lookupSrc name sources = some (.arrVal cs) ∧
        (findComponentFile name hier sources).2 =
          updateSrc name (.arrVal (sortCandidatesDesc cs)) sources ∧
        List.Pairwise (fun a b => candPriority b ≤ candPriority a)
          (sortCandidatesDesc cs)) ∧
    (∀ name hier (sources : Sources), sortConditionB name hier sources = false →
      (findComponentFile name hier sources).2 = sources) := by
  refine ⟨?_, ?_, ?_, ?_⟩
  · intro name hier sources k hk
    cases hc : sortConditionB name hier sources with
    | false => rw [sortConditionB_false_snd hc]
    | true =>
      rcases sortConditionB_true_snd hc with ⟨cs, hlk, hsnd⟩
      rw [hsnd]
      exact lookupSrc_updateSrc_ne hk
  · intro name hier sources cs hlk
    cases hc : sortConditionB name hier sources with
    | false =>
      rw [sortConditionB_false_snd hc]
      exact ⟨cs, hlk, List.Perm.refl cs⟩
    | true =>
      rcases sortConditionB_true_snd hc with ⟨cs2, hlk2, hsnd⟩
      have hcs : cs2 = cs := by
        rw [hlk] at hlk2
        injection hlk2 with hv
        injection hv.symm
      subst hcs
      rw [hsnd]
      exact ⟨sortCandidatesDesc cs2,
        lookupSrc_updateSrc_self hlk, sortCandidatesDesc_perm cs2⟩
  · intro name hier sources hc
    rcases sortConditionB_true_snd hc with ⟨cs, hlk, hsnd⟩
    exact ⟨cs, hlk, hsnd, sortCandidatesDesc_pairwise cs⟩
  · intro name hier sources hc
    exact sortConditionB_false_snd hc

/-- A concrete Source Map with a duplicated name whose resolution sorts. -/
def dupSources : Sources :=
  [(sl "Other", .strVal (sl "/o/Other.tsx")),
   (sl "Dup", .arrVal [⟨sl "/lo/Dup.js", none, some 2⟩,
     ⟨sl "/hi/Dup.tsx", none, some 3⟩])]

/-- Witness for C10 at concrete inputs: the unrelated entry is
untouched, the sorted entry is a permutation, the sort branch rewrites
the stored list, and a context-matching resolution leaves the map as it
was. -/
theorem findComponentFile_frame_witness :
    (lookupSrc (sl "Other") (findComponentFile (sl "Dup") [] dupSources).2 =
      lookupSrc (sl "Other") dupSources) ∧
    ((findComponentFile (sl "Dup") [] dupSources).2 =
      updateSrc (sl "Dup")
        (.arrVal (sortCandidatesDesc [⟨sl "/lo/Dup.js", none, some 2⟩,
          ⟨sl "/hi/Dup.tsx", none, some 3⟩])) dupSources) ∧
    ((findComponentFile (sl "Header") [sl "Page", sl "Nav", sl "Header"]
      exampleSources).2 = exampleSources) := by
  refine ⟨?_, ?_, ?_⟩
  · exact findComponentFile_frame.1 (sl "Dup") [] dupSources (sl "Other")
      (by decide)
  · rcases findComponentFile_frame.2.2.1 (sl "Dup") [] dupSources (by decide)
      with ⟨cs, hlk, hsnd, hpw⟩
    have hcs : cs = [⟨sl "/lo/Dup.js", none, some 2⟩,
        ⟨sl "/hi/Dup.tsx", none, some 3⟩] := by
      have hconc : lookupSrc (sl "Dup") dupSources =
          some (.arrVal [⟨sl "/lo/Dup.js", none, some 2⟩,
            ⟨sl "/hi/Dup.tsx", none, some 3⟩]) := by decide
      rw [hconc] at hlk
      injection hlk with hv
      injection hv with hv2
      exact hv2.symm
    rw [← hcs]
    exact hsnd
  · exact findComponentFile_frame.2.2.2 (sl "Header")
      [sl "Page", sl "Nav", sl "Header"] exampleSources (by decide)

/-! ## Render-Tree Walker (src/src/constants.js lines 220–274, 484–597)

Render Nodes (React fibers) are identified by numbers; a graph function
gives each identity its node data.  The element type is an inductive
value mirroring what `resolveComponentName` inspects: functions (with
`displayName` / `name` / `render` / `$$typeof`+`type`), plain string
tags, other objects (with optional `$$typeof`+`type`), and a `nul`
constructor for JS null/undefined. -/

inductive ElemType where
  | nul
  | fn (displayName : Option (List Char)) (name : Option (List Char))
    (render : ElemType) (hasTypeof : Bool) (typ : ElemType)
  | str (s : List Char)
  | obj (hasTypeof : Bool) (typ : ElemType)
deriving DecidableEq

/-- JS truthiness of an element-type value. -/
def truthyET : ElemType → Bool
  | .nul => false
  | .str s => !s.isEmpty
  | _ => true

structure FiberNode where
  elementType : ElemType
  typ : ElemType
  debugFileName : Option (List Char)
  ret : Option Nat
  owner : Option Nat
deriving DecidableEq

/-- `HTML_ELEMENTS` of src/src/constants.js (the browser-side set). -/
def HTML_ELEMENTS_UI : List (List Char) :=
  [sl "div", sl "span", sl "form", sl "button", sl "input", sl "a", sl "img",
   sl "p", sl "h1", sl "h2", sl "h3", sl "h4", sl "h5", sl "h6",
   sl "ul", sl "li", sl "ol", sl "table", sl "tr", sl "td", sl "th",
   sl "thead", sl "tbody", sl "tfoot",
   sl "section", sl "article", sl "header", sl "footer", sl "nav",
   sl "main", sl "aside",
   sl "label", sl "select", sl "option", sl "textarea", sl "fieldset",
   sl "legend",
   sl "br", sl "hr", sl "strong", sl "em", sl "b", sl "i", sl "u",
   sl "small", sl "sub", sl "sup",
   sl "dl", sl "dt", sl "dd", sl "pre", sl "code", sl "blockquote", sl "cite",
   sl "canvas", sl "svg", sl "path", sl "circle", sl "rect", sl "line",
   sl "polyline", sl "polygon",
   sl "iframe", sl "embed", sl "object", sl "video", sl "audio",
   sl "source", sl "track",
   sl "meta", sl "link", sl "style", sl "script", sl "noscript", sl "template"]

/-- `isHTMLElement` of src/src/constants.js. -/
def isHTMLElement (name : List Char) : Bool :=
  if name.isEmpty then false else HTML_ELEMENTS_UI.contains (lowerStr name)

/-- The basename extraction `/([^/\\]+)\.(jsx?|tsx?)$/` of
`resolveComponentName`'s `_debugSource` fallback. -/
def afterLastSlashOrBack (l : List Char) : List Char :=
  l.foldl (fun acc c => if c == '/' || c == '\\' then [] else acc ++ [c]) []

def debugFileBaseName (fileName : List Char) : Option (List Char) :=
  let seg := afterLastSlashOrBack fileName
  let tl := seg.reverse.takeWhile (fun c => !(c == '.'))
  if tl.length < seg.length then
    let ext := tl.reverse
    let base := seg.take (seg.length - tl.length - 1)
    if (ext == sl "js" || ext == sl "jsx" || ext == sl "ts" || ext == sl "tsx")
        && !base.isEmpty then
      some base
    else none
  else none

/-- The `fiber._debugSource` fallback of `resolveComponentName`. -/
def dbgResolve (dbg : Option (List Char)) : Option (List Char) :=
  match dbg with
  | some fn => if fn.isEmpty then none else debugFileBaseName fn
  | none => none

/-- `resolveComponentName` of src/src/constants.js: display name, then
declared name (unless `Anonymous`), then the wrapped `render` target,
then the wrapped `$$typeof`/`type` recursively, then plain string tags,
then a name derived from the declared source file's base name. -/
def resolveComponentName (et : ElemType) (dbg : Option (List Char)) :
    Option (List Char) :=
  if truthyET et = false then none
  else match et with
    | .nul => none
    | .fn dn nm rnd hto tp =>
      if strTruthy dn then dn
      else if strTruthy nm && !(nm.getD [] == sl "Anonymous") then nm
      else if truthyET rnd then resolveComponentName rnd dbg
      else if hto && truthyET tp then resolveComponentName tp dbg
      else dbgResolve dbg
    | .str s => some s
    | .obj hto tp =>
      if hto && truthyET tp then resolveComponentName tp dbg
      else dbgResolve dbg

/-- The process-wide reference state the walker reads. -/
structure WalkCtx where
  projectRoot : Option (List Char)
  usageMap : List (List Char × List (List Char))
  importMap : List (List Char × List (List Char))
  nameIdx : List (List Char)
deriving DecidableEq

/-- JS object lookup for the usage/import maps. -/
def lookupFiles (k : List Char) :
    List (List Char × List (List Char)) → Option (List (List Char))
  | [] => none
  | (k2, v) :: rest => if k2 == k then some v else lookupFiles k rest

/-- A Component Observation as pushed by the walker. -/
structure CompInfo where
  name : List Char
  fiber : Nat
  elementType : ElemType
  depth : Nat
  isInternal : Bool
  file : Option (List Char)
deriving DecidableEq

/-- An entry of the `internalComponents` list. -/
structure InternalComp where
  name : List Char
  file : Option (List Char)
deriving DecidableEq

/-- `currentFiber.elementType || currentFiber.type`. -/
def elemTypeOf (f : FiberNode) : ElemType :=
  if truthyET f.elementType then f.elementType else f.typ

/-- `currentFiber.return || currentFiber._owner` (fiber references are
always truthy). -/
def nextFiber (f : FiberNode) : Option Nat :=
  match f.ret with
  | some r => some r
  | none => f.owner

/-- The `filePath` recorded on an observation:
`currentFiber._debugSource && currentFiber._debugSource.fileName`. -/
def fiberFilePath (f : FiberNode) : Option (List Char) :=
  match f.debugFileName with
  | some s => if s.isEmpty then none else some s
  | none => none

/-- The per-internal-component check of `isUsedByInternalComponents`:
skip a falsy file, then consult the usage map, then the import map. -/
def usedByFile (ctx : WalkCtx) (name : List Char) (ic : InternalComp) : Bool :=
  match ic.file with
  | none => false
  | some fp =>
    if fp.isEmpty then false
    else
      ((lookupFiles fp ctx.usageMap).getD []).contains name ||
      ((lookupFiles fp ctx.importMap).getD []).contains name

/-- `isUsedByInternalComponents` of src/src/constants.js. -/
def isUsedByInternalComponents (ctx : WalkCtx) (componentName : List Char)
    (seen : List InternalComp) : Bool :=
  if componentName.isEmpty || seen.isEmpty then false
  else if ctx.usageMap.isEmpty && ctx.importMap.isEmpty then true
  else seen.any (usedByFile ctx componentName)

/-- The loop body of `traverseFiberTree` for one fiber: resolve a name,
skip markup tags, classify and record. -/
def processFiber (ctx : WalkCtx) (g : Nat → FiberNode) (id : Nat) (depth : Nat)
    (acc : List CompInfo) (accInt : List InternalComp) :
    List CompInfo × List InternalComp :=
  let f := g id
  let et := elemTypeOf f
  if truthyET et then
    match resolveComponentName et f.debugFileName with
    | some componentName =>
      if componentName.isEmpty then (acc, accInt)
      else if isHTMLElement componentName then (acc, accInt)
      else
        let isInternal := isProjectComponent f.debugFileName ctx.projectRoot
          (some componentName) ctx.nameIdx
        let filePath := fiberFilePath f
        (acc ++ [⟨componentName, id, et, depth, isInternal, filePath⟩],
         if isInternal then accInt ++ [⟨componentName, filePath⟩] else accInt)
    | none => (acc, accInt)
  else (acc, accInt)

/-- The `while` loop of `traverseFiberTree`, with an explicit iteration
budget (`fuel`); `none` means the budget was exhausted while the loop
guard still held.  One unit of fuel is one loop iteration (including
the iteration that breaks on a visited node). -/
def traverseLoop (ctx : WalkCtx) (g : Nat → FiberNode) :
    Nat → Option Nat → Nat → Nat → List Nat → List CompInfo →
    List InternalComp → Option (List CompInfo × List InternalComp)
  | _, none, _, _, _, acc, accInt => some (acc, accInt)
  | fuel, some id, depth, maxDepth, visited, acc, accInt =>
    if depth < maxDepth then
      match fuel with
      | 0 => none
      | fuel + 1 =>
        if visited.contains id then some (acc, accInt)
        else
          let st := processFiber ctx g id depth acc accInt
          traverseLoop ctx g fuel (nextFiber (g id)) (depth + 1) maxDepth
            (id :: visited) st.1 st.2
    else some (acc, accInt)

/-- `traverseFiberTree` of src/src/constants.js: the walk (budgeted by
`maxDepth`, which the termination theorem shows is always enough)
followed by the external-usage filter. -/
def traverseFiberTree (ctx : WalkCtx) (g : Nat → FiberNode)
    (start : Option Nat) (maxDepth : Nat) : List CompInfo :=
  match traverseLoop ctx g maxDepth start 0 maxDepth [] [] [] with
  | some (allC, ints) =>
    allC.filter (fun comp =>
      comp.isInternal || isUsedByInternalComponents ctx comp.name ints)
  | none => []

/-! ### C6: the walk terminates within `maxDepth` iterations -/

theorem traverseLoop_isSome (ctx : WalkCtx) (g : Nat → FiberNode) :
    ∀ (fuel : Nat) (cur : Option Nat) (depth maxDepth : Nat)
      (visited : List Nat) (acc : List CompInfo) (accInt : List InternalComp),
      maxDepth ≤ fuel + depth →
      (traverseLoop ctx g fuel cur depth maxDepth visited acc accInt).isSome = true := by
  intro fuel
  induction fuel with
  | zero =>
    intro cur depth maxDepth visited acc accInt hle
    cases cur with
    | none => rfl
    | some id =>
      unfold traverseLoop
      rw [if_neg (by omega)]
      rfl
  | succ fuel ih =>
    intro cur depth maxDepth visited acc accInt hle
    cases cur with
    | none => rfl
    | some id =>
      unfold traverseLoop
      by_cases hd : depth < maxDepth
      · rw [if_pos hd]
        simp only []
        by_cases hv : visited.contains id = true
        · rw [if_pos hv]
          rfl
        · rw [if_neg hv]
          exact ih _ _ _ _ _ _ (by omega)
      · rw [if_neg hd]
        rfl

/-- C6: for every render-tree graph (cyclic parent/owner links
included), every starting node and every `maxDepth`, the walk finishes
within `maxDepth` loop iterations: running the loop with an iteration
budget of exactly `maxDepth` never exhausts it, because the depth
counter increments every iteration and the loop guard requires
`depth < maxDepth` (the visited-set guard only ends the walk sooner). -/
theorem traverseFiberTree_terminates (ctx : WalkCtx) (g : Nat → FiberNode)
    (start : Option Nat) (maxDepth : Nat) :
    (traverseLoop ctx g maxDepth start 0 maxDepth [] [] []).isSome = true :=
  traverseLoop_isSome ctx g maxDepth start 0 maxDepth [] [] [] (by omega)

/-! ### C7: the walker never records a markup-tag observation -/

theorem processFiber_cases (ctx : WalkCtx) (g : Nat → FiberNode) (id depth : Nat)
    (acc : List CompInfo) (accInt : List InternalComp) :
    processFiber ctx g id depth acc accInt = (acc, accInt) ∨
    (∃ comp, (processFiber ctx g id depth acc accInt).1 = acc ++ [comp] ∧
      comp.name ≠ [] ∧ isHTMLElement comp.name = false) := by
  unfold processFiber
  by_cases ht : truthyET (elemTypeOf (g id)) = true
  · rw [if_pos ht]
    cases hr : resolveComponentName (elemTypeOf (g id)) (g id).debugFileName with
    | none => exact Or.inl rfl
    | some n =>
      simp only []
      by_cases he : n.isEmpty = true
      · rw [if_pos he]
        exact Or.inl rfl
      · rw [if_neg he]
        by_cases hh : isHTMLElement n = true
        · rw [if_pos hh]
          exact Or.inl rfl
        · rw [if_neg hh]
          refine Or.inr ⟨_, rfl, ?_, ?_⟩
          · show n ≠ []
            intro hn
            rw [hn] at he
            exact he rfl
          · show isHTMLElement n = false
            cases hv : isHTMLElement n
            · rfl
            · exact absurd hv hh
  · rw [if_neg ht]
    exact Or.inl rfl

theorem traverseLoop_mem (ctx : WalkCtx) (g : Nat → FiberNode) :
    ∀ (fuel : Nat) (cur : Option Nat) (depth maxD : Nat) (visited : List Nat)
      (acc : List CompInfo) (accInt : List InternalComp)
      (allC : List CompInfo) (ints : List InternalComp),
      traverseLoop ctx g fuel cur depth maxD visited acc accInt =
        some (allC, ints) →
      ∀ comp ∈ allC, comp ∈ acc ∨
        (comp.name ≠ [] ∧ isHTMLElement comp.name = false) := by
  intro fuel
  induction fuel with
  | zero =>
    intro cur depth maxD visited acc accInt allC ints heq comp hc
    cases cur with
    | none =>
      unfold traverseLoop at heq
      injection heq with hpair
      injection hpair with h1 h2
      subst h1
      exact Or.inl hc
    | some id =>
      unfold traverseLoop at heq
      by_cases hd : depth < maxD
      · rw [if_pos hd] at heq
        simp only [] at heq
        exact Option.noConfusion heq
      · rw [if_neg hd] at heq
        injection heq with hpair
        injection hpair with h1 h2
        subst h1
        exact Or.inl hc
  | succ fuel ih =>
    intro cur depth maxD visited acc accInt allC ints heq comp hc
    cases cur with
    | none =>
      unfold traverseLoop at heq
      injection heq with hpair
      injection hpair with h1 h2
      subst h1
      exact Or.inl hc
    | some id =>
      unfold traverseLoop at heq
      by_cases hd : depth < maxD
      · rw [if_pos hd] at heq
        simp only [] at heq
        by_cases hv : visited.contains id = true
        · rw [if_pos hv] at heq
          injection heq with hpair
          injection hpair with h1 h2
          subst h1
          exact Or.inl hc
        · rw [if_neg hv] at heq
          rcases ih _ _ _ _ _ _ _ _ heq comp hc with hin | hgood
          · rcases processFiber_cases ctx g id depth acc accInt with hsame | ⟨c2, hpush, hne, hmk⟩
            · rw [hsame] at hin
              exact Or.inl hin
            · rw [hpush] at hin
              rcases List.mem_append.mp hin with hl | hr
              · exact Or.inl hl
              · simp at hr
                subst hr
                exact Or.inr ⟨hne, hmk⟩
          · exact Or.inr hgood
      · rw [if_neg hd] at heq
        injection heq with hpair
        injection hpair with h1 h2
        subst h1
        exact Or.inl hc

/-- C7: every observation the walker returns has a name that is not a
known plain-markup tag; nodes resolving to markup tags are never
recorded. -/
theorem traverseFiberTree_no_markup :
    ∀ ctx g start maxD comp, comp ∈ traverseFiberTree ctx g start maxD →
      isHTMLElement comp.name = false := by
  intro ctx g start maxD comp h
  unfold traverseFiberTree at h
  cases heq : traverseLoop ctx g maxD start 0 maxD [] [] [] with
  | none =>
    rw [heq] at h
    simp only [] at h
    cases h
  | some out =>
    obtain ⟨allC, ints⟩ := out
    rw [heq] at h
    simp only [] at h
    have hmem := (List.mem_filter.mp h).1
    rcases traverseLoop_mem ctx g _ _ _ _ _ _ _ _ _ heq comp hmem with habs | hgood
    · cases habs
    · exact hgood.2

/-- A one-node render tree producing a single internal observation. -/
def demoFiber : FiberNode :=
  ⟨.fn none (some (sl "Widget")) .nul false .nul, .nul, none, none, none⟩

def demoG : Nat → FiberNode := fun _ => demoFiber

def demoCtx : WalkCtx := ⟨none, [], [], []⟩

def demoComp : CompInfo :=
  ⟨sl "Widget", 0, .fn none (some (sl "Widget")) .nul false .nul, 0, true, none⟩

/-- Witness for C7: the demo walk returns the `Widget` observation, and
the theorem gives that its name is not a markup tag. -/
theorem traverseFiberTree_no_markup_witness :
    isHTMLElement demoComp.name = false :=
  traverseFiberTree_no_markup demoCtx demoG (some 0) 50 demoComp (by decide)

/-! ### C4: the external-usage filter -/

/-- The specification-side reading of the usage check: some internal
observation's file has the name in its usage-map or import-map entry. -/
def usedBySpec (ctx : WalkCtx) (name : List Char) (ints : List InternalComp) :
    Prop :=
  ∃ ic ∈ ints, ∃ fp, ic.file = some fp ∧ fp ≠ [] ∧
    (name ∈ (lookupFiles fp ctx.usageMap).getD [] ∨
     name ∈ (lookupFiles fp ctx.importMap).getD [])

theorem usedByFile_iff (ctx : WalkCtx) (name : List Char) (ic : InternalComp) :
    usedByFile ctx name ic = true ↔
      ∃ fp, ic.file = some fp ∧ fp ≠ [] ∧
        (name ∈ (lookupFiles fp ctx.usageMap).getD [] ∨
         name ∈ (lookupFiles fp ctx.importMap).getD []) := by
  unfold usedByFile
  cases hf : ic.file with
  | none => simp
  | some fp =>
    simp only []
    by_cases he : fp.isEmpty = true
    · rw [if_pos he]
      have hfe : fp = [] := by simpa using he
      constructor
      · intro hcontra
        simp at hcontra
      · rintro ⟨fp2, hfp2, hne2, _⟩
        injection hfp2 with h2
        exact absurd (h2.symm.trans hfe) hne2
    · rw [if_neg he]
      have hne : fp ≠ [] := by
        intro hh
        rw [hh] at he
        exact he rfl
      constructor
      · intro hb
        have hb2 : name ∈ (lookupFiles fp ctx.usageMap).getD [] ∨
            name ∈ (lookupFiles fp ctx.importMap).getD [] := by simpa using hb
        exact ⟨fp, rfl, hne, hb2⟩
      · rintro ⟨fp2, hfp2, _, hmem⟩
        injection hfp2 with h2
        subst h2
        simpa using hmem

/-- A one-node walk over an external component with both maps empty:
the observation is collected but then dropped. -/
def extCtx : WalkCtx := ⟨some (sl "myapp"), [], [], []⟩

def extFiber : FiberNode :=
  ⟨.fn none (some (sl "Tooltip")) .nul false .nul, .nul,
    some (sl "node_modules/lib/tooltip.js"), none, none⟩

def extG : Nat → FiberNode := fun _ => extFiber

def extComp : CompInfo :=
  ⟨sl "Tooltip", 0, .fn none (some (sl "Tooltip")) .nul false .nul, 0, false,
    some (sl "node_modules/lib/tooltip.js")⟩

/-- C4 counterexample: with both maps empty and no internal observation
in the walk, the external observation is dropped, although the claim
says every external observation is kept when both maps are empty. -/
theorem traverseFiberTree_emptyMaps_counterexample :
    extCtx.usageMap = [] ∧ extCtx.importMap = [] ∧
    traverseLoop extCtx extG 50 (some 0) 0 50 [] [] [] =
      some ([extComp], []) ∧
    extComp.isInternal = false ∧
    traverseFiberTree extCtx extG (some 0) 50 = [] := by
  refine ⟨rfl, rfl, by decide, rfl, by decide⟩

/-- C4 (amended): after a walk, an observation is kept iff it is
internal or the usage check accepts it; and for a non-empty name the
usage check accepts iff the walk collected at least one internal
observation AND (both maps are entirely empty, or the name appears in
the usage-map or import-map entry for the file of some collected
internal observation).  In particular, with both maps empty, external
observations are kept only in walks that collected an internal
observation. -/
theorem traverseFiberTree_external_usage :
    (∀ ctx g start maxD allC ints comp,
      traverseLoop ctx g maxD start 0 maxD [] [] [] = some (allC, ints) →
      comp ∈ allC →
      (comp ∈ traverseFiberTree ctx g start maxD ↔
        (comp.isInternal = true ∨
          isUsedByInternalComponents ctx comp.name ints = true))) ∧
    (∀ ctx name ints, name ≠ [] →
      (isUsedByInternalComponents ctx name ints = true ↔
        (ints ≠ [] ∧ ((ctx.usageMap = [] ∧ ctx.importMap = []) ∨
          usedBySpec ctx name ints)))) := by
  constructor
  · intro ctx g start maxD allC ints comp heq hmem
    unfold traverseFiberTree
    rw [heq]
    simp only []
    constructor
    · intro hf
      have := (List.mem_filter.mp hf).2
      simpa using this
    · intro hor
      refine List.mem_filter.mpr ⟨hmem, ?_⟩
      simpa using hor
  · intro ctx name ints hname
    unfold isUsedByInternalComponents
    have hne : name.isEmpty = false := isEmpty_false_of_ne_nil hname
    rw [hne]
    simp only [Bool.false_or]
    by_cases hi : ints.isEmpty = true
    · rw [hi]
      have hii : ints = [] := by simpa using hi
      simp [hii]
    · have hif : ints.isEmpty = false := by
        cases hv : ints.isEmpty
        · rfl
        · exact absurd hv hi
      rw [hif]
      have hine : ints ≠ [] := by
        intro hh
        rw [hh] at hif
        simp at hif
      by_cases hm : (ctx.usageMap.isEmpty && ctx.importMap.isEmpty) = true
      · rw [if_pos hm]
        have hmm : ctx.usageMap = [] ∧ ctx.importMap = [] := by
          constructor
          · have := (Bool.and_elim_left hm)
            simpa using this
          · have := (Bool.and_elim_right hm)
            simpa using this
        simp [hine, hmm.1, hmm.2]
      · rw [if_neg hm]
        have hmne : ¬(ctx.usageMap = [] ∧ ctx.importMap = []) := by
          rintro ⟨h1, h2⟩
          apply hm
          rw [h1, h2]
          rfl
        constructor
        · intro hany
          refine ⟨hine, Or.inr ?_⟩
          rcases (by simpa using hany :
            ∃ ic ∈ ints, usedByFile ctx name ic = true) with ⟨ic, hicm, hicb⟩
          exact ⟨ic, hicm, (usedByFile_iff ctx name ic).mp hicb⟩
        · rintro ⟨_, hmm | hspec⟩
          · exact absurd hmm hmne
          · rcases hspec with ⟨ic, hicm, hfp⟩
            have hb : usedByFile ctx name ic = true :=
              (usedByFile_iff ctx name ic).mpr hfp
            exact List.any_eq_true.mpr ⟨ic, hicm, hb⟩

/-- A two-node walk: an external `Tooltip` above an internal `Card`
whose file's usage-map entry references `Tooltip`. -/
def usageCtx : WalkCtx :=
  ⟨some (sl "myapp"), [(sl "myapp/src/card.tsx", [sl "Tooltip"])], [], []⟩

def usageG : Nat → FiberNode := fun i =>
  if i == 0 then
    ⟨.fn none (some (sl "Tooltip")) .nul false .nul, .nul,
      some (sl "node_modules/lib/tooltip.js"), some 1, none⟩
  else
    ⟨.fn none (some (sl "Card")) .nul false .nul, .nul,
      some (sl "myapp/src/card.tsx"), none, none⟩

def usageCardComp : CompInfo :=
  ⟨sl "Card", 1, .fn none (some (sl "Card")) .nul false .nul, 1, true,
    some (sl "myapp/src/card.tsx")⟩

/-- Witness for C4's amended theorem: the external `Tooltip` observation
is kept because an internal observation's usage entry references it. -/
theorem traverseFiberTree_external_usage_witness :
    extComp ∈ traverseFiberTree usageCtx usageG (some 0) 50 :=
  (traverseFiberTree_external_usage.1 usageCtx usageG (some 0) 50
    [extComp, usageCardComp]
    [⟨sl "Card", some (sl "myapp/src/card.tsx")⟩]
    extComp (by decide) (by decide)).mpr (Or.inr (by decide))

/-! ## Hierarchy Path Builder (src/src/constants.js lines 127–137, 788–925)

`getDomPath` walks the host DOM, so the DOM-ancestor fallback list is
supplied as an input. -/

/-- `removeConsecutiveDuplicates`'s loop: each element is compared
case-insensitively against its predecessor in the input. -/
def rcdGo (prev : List Char) : List (List Char) → List (List Char)
  | [] => []
  | y :: ys =>
    if !(lowerStr y == lowerStr prev) then y :: rcdGo y ys else rcdGo y ys

/-- `removeConsecutiveDuplicates` of src/src/constants.js. -/
def removeConsecutiveDuplicates : List (List Char) → List (List Char)
  | [] => []
  | x :: xs => x :: rcdGo x xs

/-- `Array.prototype.join(' -> ')`. -/
def joinArrow : List (List Char) → List Char
  | [] => []
  | [x] => x
  | x :: xs => x ++ sl " -> " ++ joinArrow xs

/-- The shared first filter of both builders: drop the leaf's own name
and markup tags. -/
def filterComponents (components : List CompInfo) (current : List Char) :
    List CompInfo :=
  components.filter (fun comp => !(comp.name == current) && !isHTMLElement comp.name)

/-- The full-structure path as a name list. -/
def buildFullStructureList (components : List CompInfo) (current : List Char)
    (domPath : List (List Char)) : List (List Char) :=
  if !components.isEmpty then
    if !(filterComponents components current).isEmpty then
      (filterComponents components current).map CompInfo.name ++ [current]
    else [current]
  else
    if !domPath.isEmpty then domPath ++ [current] else [current]

/-- `buildFullStructure` of src/src/constants.js. -/
def buildFullStructure (components : List CompInfo) (current : List Char)
    (domPath : List (List Char)) : List Char :=
  joinArrow (buildFullStructureList components current domPath)

/-- `split(/[\/\\]/)`, keeping empty segments. -/
def splitSlashes (l : List Char) : List (List Char) :=
  l.foldr
    (fun c acc =>
      if c == '/' || c == '\\' then [] :: acc
      else match acc with
        | s :: rest => (c :: s) :: rest
        | [] => [[c]])
    [[]]

/-- `replace(/\.(tsx?|jsx?)$/, '')`. -/
def stripExtTsJs (l : List Char) : List Char :=
  if listEndsWith (sl ".tsx") l then l.take (l.length - 4)
  else if listEndsWith (sl ".ts") l then l.take (l.length - 3)
  else if listEndsWith (sl ".jsx") l then l.take (l.length - 4)
  else if listEndsWith (sl ".js") l then l.take (l.length - 3)
  else l

/-- The `nameMatchesFile` corroboration disjunction of
`buildFilteredStructure`. -/
def nameMatchesFile (normalizedName normalizedFile : List Char) : Bool :=
  let filename := (splitSlashes normalizedFile).getLast?.getD []
  listContainsSeg (sl "/" ++ normalizedName) normalizedFile ||
  listContainsSeg (sl "\\" ++ normalizedName) normalizedFile ||
  listEndsWith (sl "/" ++ normalizedName ++ sl ".tsx") normalizedFile ||
  listEndsWith (sl "/" ++ normalizedName ++ sl ".ts") normalizedFile ||
  listEndsWith (sl "/" ++ normalizedName ++ sl ".jsx") normalizedFile ||
  listEndsWith (sl "/" ++ normalizedName ++ sl ".js") normalizedFile ||
  listEndsWith (sl "\\" ++ normalizedName ++ sl ".tsx") normalizedFile ||
  listEndsWith (sl "\\" ++ normalizedName ++ sl ".ts") normalizedFile ||
  listEndsWith (sl "\\" ++ normalizedName ++ sl ".jsx") normalizedFile ||
  listEndsWith (sl "\\" ++ normalizedName ++ sl ".js") normalizedFile ||
  stripExtTsJs filename == normalizedName

/-- One pass of `buildFilteredStructure`'s corroboration/deduplication
loop; the state is `(seenComponents, projectOwnedComponents)`. -/
def filteredLoopStep (nameIdx : List (List Char))
    (st : List (List Char) × List CompInfo) (comp : CompInfo) :
    List (List Char) × List CompInfo :=
  if !comp.isInternal then st
  else
    let normalizedName := lowerStr comp.name
    if strTruthy comp.file then
      let file := comp.file.getD []
      let normalizedFile := lowerStr file
      if !nameMatchesFile normalizedName normalizedFile &&
          !nameIdx.contains normalizedName then st
      else
        let componentKey := normalizedName ++ sl ":" ++ normalizePath file
        if st.1.contains componentKey then st
        else (st.1 ++ [componentKey], st.2 ++ [comp])
    else
      if st.1.contains normalizedName then st
      else (st.1 ++ [normalizedName], st.2 ++ [comp])

/-- The filtered-structure path as a name list. -/
def buildFilteredStructureList (nameIdx : List (List Char))
    (components : List CompInfo) (current : List Char)
    (domPath : List (List Char)) : List (List Char) :=
  if !components.isEmpty then
    if !((filterComponents components current).foldl
        (filteredLoopStep nameIdx) ([], [])).2.isEmpty then
      removeConsecutiveDuplicates
        (if !(((filterComponents components current).foldl
            (filteredLoopStep nameIdx) ([], [])).2.map CompInfo.name).any
              (fun n => lowerStr n == lowerStr current) then
          ((filterComponents components current).foldl
            (filteredLoopStep nameIdx) ([], [])).2.map CompInfo.name ++ [current]
        else
          ((filterComponents components current).foldl
            (filteredLoopStep nameIdx) ([], [])).2.map CompInfo.name)
    else [current]
  else
    if !domPath.isEmpty then
      removeConsecutiveDuplicates
        (if !(domPath.any (fun n => lowerStr n == lowerStr current)) then
          domPath ++ [current]
        else domPath)
    else [current]

/-- `buildFilteredStructure` of src/src/constants.js. -/
def buildFilteredStructure (nameIdx : List (List Char))
    (components : List CompInfo) (current : List Char)
    (domPath : List (List Char)) : List Char :=
  joinArrow (buildFilteredStructureList nameIdx components current domPath)

/-! ### C3: only the filtered structure deduplicates consecutive names -/

theorem rcdGo_chain (l : List (List Char)) : ∀ (prev : List Char),
    List.Chain' (fun a b => lowerStr a ≠ lowerStr b) (rcdGo prev l) ∧
    (∀ z, (rcdGo prev l).head? = some z → lowerStr z ≠ lowerStr prev) := by
  induction l with
  | nil =>
    intro prev
    constructor
    · exact List.chain'_nil
    · intro z hz
      simp [rcdGo] at hz
  | cons y ys ih =>
    intro prev
    by_cases hy : (lowerStr y == lowerStr prev) = true
    · have heq : lowerStr y = lowerStr prev := by simpa using hy
      have hred : rcdGo prev (y :: ys) = rcdGo y ys := by
        unfold rcdGo
        rw [if_neg (by simp [hy])]
        cases ys <;> rfl
      rw [hred]
      refine ⟨(ih y).1, ?_⟩
      intro z hz
      have hzy := (ih y).2 z hz
      rw [heq] at hzy
      exact hzy
    · have hne : lowerStr y ≠ lowerStr prev := by simpa using hy
      have hred : rcdGo prev (y :: ys) = y :: rcdGo y ys := by
        unfold rcdGo
        rw [if_pos (by simp [hy])]
        cases ys <;> rfl
      rw [hred]
      constructor
      · refine List.chain'_cons'.mpr ⟨?_, (ih y).1⟩
        intro z hz
        exact ((ih y).2 z hz).symm
      · intro z hz
        simp at hz
        rw [← hz]
        exact hne

theorem removeConsecutiveDuplicates_chain (l : List (List Char)) :
    List.Chain' (fun a b => lowerStr a ≠ lowerStr b)
      (removeConsecutiveDuplicates l) := by
  cases l with
  | nil => exact List.chain'_nil
  | cons x xs =>
    refine List.chain'_cons'.mpr ⟨?_, (rcdGo_chain xs x).1⟩
    intro z hz
    exact ((rcdGo_chain xs x).2 z hz).symm

def compAlpha1 : CompInfo := ⟨sl "Alpha", 0, .nul, 0, true, none⟩

def compAlpha2 : CompInfo := ⟨sl "Alpha", 1, .nul, 1, true, none⟩

def compBeta : CompInfo := ⟨sl "Beta", 2, .nul, 2, true, none⟩

/-- C3 counterexample: the full structure is joined without
consecutive-duplicate removal, so a `[Alpha, Alpha, Beta]` observation
list yields a path containing `Alpha -> Alpha -> Beta`. -/
theorem buildFullStructure_counterexample :
    buildFullStructure [compAlpha1, compAlpha2, compBeta] (sl "Gamma") [] =
      sl "Alpha -> Alpha -> Beta -> Gamma" ∧
    ∃ pre post,
      pre ++ sl "Alpha -> Alpha -> Beta" ++ post =
        buildFullStructure [compAlpha1, compAlpha2, compBeta] (sl "Gamma") [] := by
  exact ⟨by decide, [], sl " -> Gamma", by decide⟩

/-- C3 (amended): only the filtered structure is case-insensitively
deduplicated against the immediate predecessor — in every branch its
name list contains no two consecutive case-insensitively equal entries,
and on the `[Alpha, Alpha, Beta]` example it builds
`Alpha -> Beta -> Gamma`.  The full structure performs no such
deduplication (see the counterexample). -/
theorem buildFilteredStructure_dedup :
    (buildFilteredStructure [] [compAlpha1, compAlpha2, compBeta]
      (sl "Gamma") [] = sl "Alpha -> Beta -> Gamma") ∧
    (∀ nameIdx components current domPath,
      List.Chain' (fun a b => lowerStr a ≠ lowerStr b)
        (buildFilteredStructureList nameIdx components current domPath)) := by
  constructor
  · decide
  · intro nameIdx components current domPath
    unfold buildFilteredStructureList
    by_cases hc : (!components.isEmpty) = true
    · rw [if_pos hc]
      by_cases hp : (!((filterComponents components current).foldl
          (filteredLoopStep nameIdx) ([], [])).2.isEmpty) = true
      · rw [if_pos hp]
        exact removeConsecutiveDuplicates_chain _
      · rw [if_neg hp]
        exact List.chain'_singleton _
    · rw [if_neg hc]
      by_cases hd : (!domPath.isEmpty) = true
      · rw [if_pos hd]
        exact removeConsecutiveDuplicates_chain _
      · rw [if_neg hd]
        exact List.chain'_singleton _
